import Mathlib

/-!
Verification development for the `dexom-python` GPR-rules module
(`dexom_python/gpr_rules.py`).

The module converts per-gene scores into per-reaction weights using each
reaction's Gene-Protein-Reaction (GPR) boolean rule.  Strings are modelled
as `List Char`, real-valued scores as `ℚ`.  The external symbolic library
(symengine's `sympify`, an out-of-scope collaborator per the specification)
is modelled as a lexer plus a standard operator-precedence arithmetic
parser producing an expression tree, as the specification describes.
All scanning functions take an explicit fuel argument (instantiated with
`length + 1`, enough because every step consumes at least one character)
so that they are structurally recursive and kernel-computable.
-/

namespace DexomGpr

/-- Strings of the Python source are modelled as lists of characters. -/
abbrev Str := List Char

/-- The literal `'or'` used by `str.replace` in `apply_gpr`. -/
def orL : Str := ['o', 'r']

/-- The literal `'and'` used by `str.replace` in `apply_gpr`. -/
def andL : Str := ['a', 'n', 'd']

/-- The literal `'*'` substituted for `or`. -/
def starL : Str := ['*']

/-- The literal `'+'` substituted for `and`. -/
def plusL : Str := ['+']

/-- `isPre pat s` is true when `pat` is a prefix of `s` (Python substring
matching at the current scan position). -/
def isPre : Str → Str → Bool
  | [], _ => true
  | _ :: _, [] => false
  | o :: os, c :: cs => o == c && isPre os cs

/-- `containsSub pat s` is true when `pat` occurs as a contiguous substring
of `s` (Python's `in` on strings). -/
def containsSub (pat : Str) : Str → Bool
  | [] => isPre pat []
  | c :: rest => isPre pat (c :: rest) || containsSub pat rest

/-- Fueled core of Python's `str.replace(old, new)`: scan left to right,
replacing non-overlapping occurrences of `old` by `new`.  Fuel decreases by
one per step while at least one character is consumed per step, so fuel
`length + 1` always suffices (`old` is nonempty at every call site). -/
def pyRepF (old new : Str) : Nat → Str → Str
  | 0, s => s
  | _ + 1, [] => []
  | f + 1, c :: rest =>
    if isPre old (c :: rest) then new ++ pyRepF old new f (List.drop old.length (c :: rest))
    else c :: pyRepF old new f rest

/-- Python's `s.replace(old, new)` for nonempty `old`. -/
def pyReplace (s old new : Str) : Str := pyRepF old new (s.length + 1) s

/-- `' '.join`-style joining with an arbitrary separator. -/
def joinSep (sep : Str) : List Str → Str
  | [] => []
  | [g] => g
  | g :: g2 :: rest => g ++ sep ++ joinSep sep (g2 :: rest)

/-- Fueled core of Python's whitespace `str.split()`. -/
def pySplitF : Nat → Str → List Str
  | 0, _ => []
  | _ + 1, [] => []
  | f + 1, c :: rest =>
    if c = ' ' then pySplitF f rest
    else (c :: rest.takeWhile (fun x => x != ' ')) :: pySplitF f (rest.dropWhile (fun x => x != ' '))

/-- Python's `str.split()` (fields separated by runs of spaces). -/
def pySplit (s : Str) : List Str := pySplitF (s.length + 1) s

/-- Fueled core of `re.sub('and|or|\(|\)', '', s)`: at each position the
regex alternatives are tried in order (`and`, `or`, `(`, `)`) and the match
is deleted. -/
def reSubF : Nat → Str → Str
  | 0, s => s
  | _ + 1, [] => []
  | f + 1, c :: rest =>
    if isPre andL (c :: rest) then reSubF f (List.drop 3 (c :: rest))
    else if isPre orL (c :: rest) then reSubF f (List.drop 2 (c :: rest))
    else if c = '(' ∨ c = ')' then reSubF f rest
    else c :: reSubF f rest

/-- `re.sub('and|or|\(|\)', '', s)` from `prepare_expr_split_gen_list`. -/
def reSubAndOrParen (s : Str) : Str := reSubF (s.length + 1) s

/-- Tokens of the arithmetic expression handed to the symbolic parser. -/
inductive ATok where
  | sym : Str → ATok
  | plus : ATok
  | star : ATok
  | lpar : ATok
  | rpar : ATok
deriving DecidableEq

/-- A character that can be part of an identifier token in the arithmetic
expression (anything except space and the four operator characters). -/
def nameChar (c : Char) : Bool :=
  !(c == ' ' || c == '+' || c == '*' || c == '(' || c == ')')

/-- Fueled lexer for the arithmetic expression string: spaces are skipped,
`+ * ( )` are operator tokens, maximal runs of other characters are
identifier tokens. -/
def lexF : Nat → Str → List ATok
  | 0, _ => []
  | _ + 1, [] => []
  | f + 1, c :: rest =>
    if c = ' ' then lexF f rest
    else if c = '+' then .plus :: lexF f rest
    else if c = '*' then .star :: lexF f rest
    else if c = '(' then .lpar :: lexF f rest
    else if c = ')' then .rpar :: lexF f rest
    else .sym (c :: rest.takeWhile nameChar) :: lexF f (rest.dropWhile nameChar)

/-- Lexer entry point. -/
def lexArith (s : Str) : List ATok := lexF (s.length + 1) s

/-- Expression trees of the symbolic library: symbols, numbers, `Add`,
`Mul`, `Max` and `Min` nodes (binary; flattening by the library does not
change evaluated values). -/
inductive SymExpr where
  | sym : Str → SymExpr
  | num : ℚ → SymExpr
  | add : SymExpr → SymExpr → SymExpr
  | mul : SymExpr → SymExpr → SymExpr
  | smax : SymExpr → SymExpr → SymExpr
  | smin : SymExpr → SymExpr → SymExpr
deriving DecidableEq

/-- Numeric value of an all-digit token. -/
def natOfDigits (s : Str) : ℕ := s.foldl (fun a c => 10 * a + (c.toNat - 48)) 0

/-- A leaf of the parsed expression: an all-digit token is an integer
literal, anything else is a symbol. -/
def mkLeaf (s : Str) : SymExpr :=
  if !s.isEmpty && s.all Char.isDigit then .num (natOfDigits s) else .sym s

/-- Parser mode: `expr` handles `+` chains, `term` handles `*` chains,
`factor` handles leaves and parentheses; the `Aux` modes carry the
left-associated accumulator. -/
inductive PMode where
  | expr : PMode
  | exprAux : SymExpr → PMode
  | term : PMode
  | termAux : SymExpr → PMode
  | factor : PMode

/-- Modelled from the spec: the external `symengine.sympify` collaborator,
described in the specification as "standard operator-precedence arithmetic
parsing (so `+` binds like AND, `*` like OR, parentheses as written)".
Fueled recursive-descent parser, returning the parsed expression and the
remaining tokens. -/
def parseF : Nat → PMode → List ATok → Option (SymExpr × List ATok)
  | 0, _, _ => none
  | f + 1, .expr, ts =>
    match parseF f .term ts with
    | some (e, r) => parseF f (.exprAux e) r
    | none => none
  | f + 1, .exprAux acc, ts =>
    match ts with
    | .plus :: rest =>
      match parseF f .term rest with
      | some (e, r) => parseF f (.exprAux (.add acc e)) r
      | none => none
    | _ => some (acc, ts)
  | f + 1, .term, ts =>
    match parseF f .factor ts with
    | some (e, r) => parseF f (.termAux e) r
    | none => none
  | f + 1, .termAux acc, ts =>
    match ts with
    | .star :: rest =>
      match parseF f .factor rest with
      | some (e, r) => parseF f (.termAux (.mul acc e)) r
      | none => none
    | _ => some (acc, ts)
  | f + 1, .factor, ts =>
    match ts with
    | .sym s :: rest => some (mkLeaf s, rest)
    | .lpar :: rest =>
      match parseF f .expr rest with
      | some (e, .rpar :: r2) => some (e, r2)
      | _ => none
    | _ => none

/-- `sympify(expression)`: lex and parse the whole string; a parse failure
(malformed rule) is `none`, propagated to the caller as the specification
prescribes. -/
def sympify (s : Str) : Option SymExpr :=
  match parseF (4 * (lexArith s).length + 4) .expr (lexArith s) with
  | some (e, []) => some e
  | _ => none

/-- `replace_MulMax_AddMin` from `gpr_rules.py`: atoms are returned
unchanged, `Mul` nodes become `Max` of the recursively replaced arguments,
`Add` nodes become `Min`, and any other node keeps its own head over the
replaced arguments. -/
def replace_MulMax_AddMin : SymExpr → SymExpr
  | .sym s => .sym s
  | .num q => .num q
  | .mul a b => .smax (replace_MulMax_AddMin a) (replace_MulMax_AddMin b)
  | .add a b => .smin (replace_MulMax_AddMin a) (replace_MulMax_AddMin b)
  | .smax a b => .smax (replace_MulMax_AddMin a) (replace_MulMax_AddMin b)
  | .smin a b => .smin (replace_MulMax_AddMin a) (replace_MulMax_AddMin b)

/-- First-match lookup in an association list (Python `dict` access; keys
are distinct in every dictionary the code builds). -/
def lookupQ : List (Str × ℚ) → Str → Option ℚ
  | [], _ => none
  | (k, v) :: rest, g => if k = g then some v else lookupQ rest g

/-- `gene_weights.get(g, 0)`: dictionary lookup with default `0`. -/
def lookupD (tbl : List (Str × ℚ)) (g : Str) : ℚ := (lookupQ tbl g).getD 0

/-- `expression.subs(new_weights)`: replace every symbol that has an entry
in the table by its numeric value; other symbols stay symbolic. -/
def subsW (tbl : List (Str × ℚ)) : SymExpr → SymExpr
  | .sym s =>
    match lookupQ tbl s with
    | some v => .num v
    | none => .sym s
  | .num q => .num q
  | .add a b => .add (subsW tbl a) (subsW tbl b)
  | .mul a b => .mul (subsW tbl a) (subsW tbl b)
  | .smax a b => .smax (subsW tbl a) (subsW tbl b)
  | .smin a b => .smin (subsW tbl a) (subsW tbl b)

/-- Automatic evaluation performed by the symbolic library after
substitution: nodes whose children are both numeric are folded to their
numeric value (`Max`/`Min` of numbers evaluate to the larger/smaller). -/
def evalFold : SymExpr → SymExpr
  | .sym s => .sym s
  | .num q => .num q
  | .add a b =>
    match evalFold a, evalFold b with
    | .num x, .num y => .num (x + y)
    | a', b' => .add a' b'
  | .mul a b =>
    match evalFold a, evalFold b with
    | .num x, .num y => .num (x * y)
    | a', b' => .mul a' b'
  | .smax a b =>
    match evalFold a, evalFold b with
    | .num x, .num y => .num (max x y)
    | a', b' => .smax a' b'
  | .smin a b =>
    match evalFold a, evalFold b with
    | .num x, .num y => .num (min x y)
    | a', b' => .smin a' b'

/-- The literal `1e-15` of `apply_gpr`, as an exact rational. -/
def eps : ℚ := 1 / 10 ^ 15

/-- The in-place adjustment of `new_weights` in `apply_gpr`: a negative
weight `v` is replaced by `-v - 1e-15`. -/
def flipW (v : ℚ) : ℚ := if v < 0 then -v - eps else v

/-- `new_weights = {g: gene_weights.get(g, 0) for g in gen_list}`. -/
def new_weightsOf (wt : List (Str × ℚ)) (gl : List Str) : List (Str × ℚ) :=
  gl.map (fun g => (g, lookupD wt g))

/-- The `new_weights` dictionary after the sign-adjustment loop. -/
def adjustedWeights (wt : List (Str × ℚ)) (gl : List Str) : List (Str × ℚ) :=
  gl.map (fun g => (g, flipW (lookupD wt g)))

/-- The `negweights` side list: `-v` for every gene of `gen_list` whose
looked-up weight `v` is negative. -/
def negweightsOf (wt : List (Str × ℚ)) (gl : List Str) : List ℚ :=
  (gl.map (fun g => lookupD wt g)).filterMap (fun v => if v < 0 then some (-v) else none)

/-- `' '.join(expr_split).replace('or', '*').replace('and', '+')`, the
operator-substitution step of `apply_gpr` (plain substring replacement). -/
def opSubst (s : Str) : Str := pyReplace (pyReplace s orL starL) andL plusL

/-- The heuristic unflip at the end of `apply_gpr`:
`if weight + 1e-15 in negweights: weight = -weight - 1e-15`.  A symbolic
(non-numeric) weight compares unequal to every float in the list, so it is
returned unchanged. -/
def unflip (w : SymExpr) (negs : List ℚ) : SymExpr :=
  match w with
  | .num q => if q + eps ∈ negs then .num (-q - eps) else .num q
  | e => e

/-- The body of the `apply_gpr` loop for a reaction with at least one gene:
build `new_weights`, adjust negatives, substitute the operators, parse,
rewrite `Mul → Max` and `Add → Min`, substitute the weights, and apply the
unflip heuristic.  `none` models the uncaught parse exception. -/
def eval_gpr_rule (wt : List (Str × ℚ)) (expr_split gen_list : List Str) : Option SymExpr :=
  match sympify (opSubst (joinSep [' '] expr_split)) with
  | none => none
  | some e =>
    some (unflip (evalFold (subsW (adjustedWeights wt gen_list) (replace_MulMax_AddMin e)))
      (negweightsOf wt gen_list))

/-- A cobrapy reaction as used by the module: an identifier, the list of
associated gene identifiers (`rxn.genes`), and the raw GPR rule string
(`rxn.gene_reaction_rule`). -/
structure Reaction where
  rid : Str
  genes : List Str
  gene_reaction_rule : Str
deriving DecidableEq

/-- Console messages printed by the module.  `modelnameNotFound` stands for
the source string `"Modelname not found"`; `unsupportedModel` for
`"Unsupported model. The currently supported models are: human1, recon1,
recon2, iMM1865, zebrafish1"`. -/
inductive ConsoleMsg where
  | modelnameNotFound : ConsoleMsg
  | unsupportedModel : ConsoleMsg
deriving DecidableEq

/-- Result of `prepare_expr_split_gen_list`: the token list and gene set
(each `none` models Python's `None` in the unrecognized-convention branch)
together with the console output. -/
structure PrepOut where
  expr_split : Option (List Str)
  gen_list : Option (List Str)
  console : List ConsoleMsg
deriving DecidableEq

/-- The modelname literal `"recon2"`. -/
def recon2L : Str := ['r', 'e', 'c', 'o', 'n', '2']

/-- The modelname literal `"recon1"`. -/
def recon1L : Str := ['r', 'e', 'c', 'o', 'n', '1']

/-- The modelname literal `"iMM1865"`. -/
def iMM1865L : Str := ['i', 'M', 'M', '1', '8', '6', '5']

/-- The modelname literal `"human1"`. -/
def human1L : Str := ['h', 'u', 'm', 'a', 'n', '1']

/-- The modelname literal `"zebrafish1"`. -/
def zebrafish1L : Str := ['z', 'e', 'b', 'r', 'a', 'f', 'i', 's', 'h', '1']

/-- `rule.replace("(", "( ").replace(")", " )")`: put spaces around
parentheses before splitting. -/
def spaceParens (s : Str) : Str :=
  pyReplace (pyReplace s ['('] ['(', ' ']) [')'] [' ', ')']

/-- `prepare_expr_split_gen_list(rxn, modelname)`: one transliteration
branch per supported naming convention; an unrecognized convention prints
`"Modelname not found"` and returns `(None, None)`.  Python `set`s are
modelled as deduplicated lists (membership is all that is ever used). -/
def prepare_expr_split_gen_list (rxn : Reaction) (modelname : Str) : PrepOut :=
  if modelname = recon2L then
    let expr_split := (pySplit (spaceParens rxn.gene_reaction_rule)).map
      (fun s => if ':' ∈ s then pyReplace s [':'] ['_'] else s)
    let rxngenes := pySplit (reSubAndOrParen rxn.gene_reaction_rule)
    let gen_list := ((rxngenes.filter (fun s => decide (':' ∈ s))).map
      (fun s => pyReplace s [':'] ['_'])).dedup
    ⟨some expr_split, some gen_list, []⟩
  else if modelname = recon1L then
    let expr_split := (pySplit (spaceParens rxn.gene_reaction_rule)).map
      (fun s => if '_' ∈ s then ['g', '_'] ++ s.take (s.length - 4) else s)
    let rxngenes := pySplit (reSubAndOrParen rxn.gene_reaction_rule)
    let gen_list := ((rxngenes.filter (fun s => decide ('_' ∈ s))).map
      (fun s => ['g', '_'] ++ s.take (s.length - 4))).dedup
    ⟨some expr_split, some gen_list, []⟩
  else if modelname = iMM1865L then
    let expr_split := (pySplit rxn.gene_reaction_rule).map
      (fun s => if !s.isEmpty && s.all Char.isDigit then ['g', '_'] ++ s else s)
    let rxngenes := pySplit (reSubAndOrParen rxn.gene_reaction_rule)
    let gen_list := ((rxngenes.filter (fun s => !s.isEmpty && s.all Char.isDigit)).map
      (fun s => ['g', '_'] ++ s)).dedup
    ⟨some expr_split, some gen_list, []⟩
  else if modelname = human1L then
    let expr_split := pySplit (spaceParens rxn.gene_reaction_rule)
    ⟨some expr_split, some rxn.genes.dedup, []⟩
  else if modelname = zebrafish1L then
    let expr_split := (pySplit (spaceParens rxn.gene_reaction_rule)).map
      (fun s => s.map (fun c => if c = ':' ∨ c = '.' then '_' else c))
    ⟨some expr_split, some (rxn.genes.map
      (fun g => g.map (fun c => if c = ':' ∨ c = '.' then '_' else c))).dedup, []⟩
  else ⟨none, none, [.modelnameNotFound]⟩

/-- One iteration of the `apply_gpr` loop: a reaction with no genes gets
weight `0.`; otherwise the rule is tokenized and evaluated.  `none` models
the uncaught exception raised when tokenization returned `None`. -/
def apply_gpr_reaction (wt : List (Str × ℚ)) (modelname : Str) (rxn : Reaction) :
    Option SymExpr :=
  if rxn.genes.length > 0 then
    match (prepare_expr_split_gen_list rxn modelname).expr_split,
        (prepare_expr_split_gen_list rxn modelname).gen_list with
    | some es, some gl => eval_gpr_rule wt es gl
    | _, _ => none
  else some (.num 0)

/-- `apply_gpr(model, gene_weights, modelname)`: the reaction-weights
dictionary, one entry per reaction in order. -/
def apply_gpr (model : List Reaction) (gene_weights : List (Str × ℚ)) (modelname : Str) :
    Option (List (Str × SymExpr)) :=
  match model with
  | [] => some []
  | r :: rest =>
    match apply_gpr_reaction gene_weights modelname r,
        apply_gpr rest gene_weights modelname with
    | some w, some ws => some ((r.rid, w) :: ws)
    | _, _ => none

/-- The `model_list` allow-list of `__main__`. -/
def model_list : List Str := [human1L, recon1L, recon2L, iMM1865L, zebrafish1L]

/-- The `__main__` driver after the gene table is built: an unsupported
modelname prints the error and computes no reaction weights; otherwise
`apply_gpr` runs. -/
def gpr_main (model : List Reaction) (gene_weights : List (Str × ℚ)) (modelname : Str) :
    Option (List (Str × SymExpr)) × List ConsoleMsg :=
  if modelname ∈ model_list then (apply_gpr model gene_weights modelname, [])
  else (none, [.unsupportedModel])

/-- All scores carried by gene `g` in the rows of the scores file
(`gene_weights[x]` for a possibly duplicated index entry). -/
def scoresOf (rows : List (Str × ℚ)) (g : Str) : List ℚ :=
  (rows.filter (fun r => decide (r.1 = g))).map Prod.snd

/-- The `__main__` drop test: a gene occurring in several rows
(`type(gene_weights[x]) != np.float64`) with more than one distinct score
(`len(gene_weights[x].value_counts()) > 1`) is popped from the series. -/
def droppedGene (rows : List (Str × ℚ)) (g : Str) : Bool :=
  decide (1 < (scoresOf rows g).length) && decide (1 < ((scoresOf rows g).dedup).length)

/-- The gene-weight series after the duplicate-filtering loop of
`__main__`. -/
def build_gene_weights (rows : List (Str × ℚ)) : List (Str × ℚ) :=
  rows.filter (fun r => !droppedGene rows r.1)

/-- The final `gene_weights.to_dict()` lookup (kept duplicate rows of a
gene all carry the same score, so first-match lookup is the dictionary). -/
def gene_weights_dict (rows : List (Str × ℚ)) (g : Str) : Option ℚ :=
  lookupQ (build_gene_weights rows) g

/-- Stable insertion into a value-sorted row list (ascending). -/
def insSorted (x : Str × ℚ) : List (Str × ℚ) → List (Str × ℚ)
  | [] => [x]
  | y :: rest => if y.2 ≤ x.2 then y :: insSorted x rest else x :: y :: rest

/-- `df.sort_values(col)`: sort rows by value, ascending. -/
def sortRows : List (Str × ℚ) → List (Str × ℚ)
  | [] => []
  | x :: rest => insSorted x (sortRows rest)

/-- The discrete label written by `expression2qualitative` at sorted
position `i` of a column of `n` rows: positions `[0, lo)` are set to `-1.`,
then `[lo, hi)` to `0.`, then `[hi, n)` to `1.` (the later assignments
overwrite), with `lo = int(n // cutoff) + 1`,
`hi = int(n * (cutoff - 1) // cutoff)` and `cutoff = 1 / (percentage/100)`. -/
def qualitativeLabel (n : ℕ) (percentage : ℚ) (i : ℕ) : ℚ :=
  let cutoff : ℚ := 1 / (percentage / 100)
  let lo : ℤ := ⌊(n : ℚ) / cutoff⌋ + 1
  let hi : ℤ := ⌊(n : ℚ) * (cutoff - 1) / cutoff⌋
  if hi ≤ (i : ℤ) then 1 else if lo ≤ (i : ℤ) then 0 else -1

/-- Replace each sorted row's value by its discrete label. -/
def assignLabels (n : ℕ) (percentage : ℚ) : ℕ → List (Str × ℚ) → List (Str × ℚ)
  | _, [] => []
  | i, (g, _) :: rest => (g, qualitativeLabel n percentage i) :: assignLabels n percentage (i + 1) rest

/-- One column of `expression2qualitative` with the default conflict
method `"keep"` (the only method the discretizer claim exercises): sort the
rows by value and assign `-1 / 0 / 1` by sorted position. -/
def expression2qualitative_keep (rows : List (Str × ℚ)) (percentage : ℚ) :
    List (Str × ℚ) :=
  assignLabels rows.length percentage 0 (sortRows rows)

/-- `expr_split` of a rule whose tokens are gene identifiers joined by a
single repeated operator word: `[g1, op, g2, op, ..., gn]`. -/
def interleaveOp (op : Str) : List Str → List Str
  | [] => []
  | [g] => [g]
  | g :: g2 :: rest => g :: op :: interleaveOp op (g2 :: rest)

/-- Token chain `[sym g1, op, sym g2, op, ..., sym gn]`. -/
def tokChain (op : ATok) : List Str → List ATok
  | [] => []
  | [g] => [.sym g]
  | g :: g2 :: rest => .sym g :: op :: tokChain op (g2 :: rest)

/-- Minimum of a list of weights (`min(w1, ..., wn)`; `0` for the empty
list, which never occurs for a rule with at least one gene). -/
def minFold : List ℚ → ℚ
  | [] => 0
  | x :: xs => xs.foldl min x

/-- Maximum of a list of weights. -/
def maxFold : List ℚ → ℚ
  | [] => 0
  | x :: xs => xs.foldl max x

/-- A gene identifier for which the operator-substitution and tokenization
steps are exact: nonempty, made of identifier characters only, containing
neither `or` nor `and` as a substring, and not all digits (so the parser
reads it back as a symbol). -/
def validName (g : Str) : Prop :=
  g ≠ [] ∧ (∀ c ∈ g, nameChar c = true) ∧ containsSub orL g = false ∧
    containsSub andL g = false ∧ ¬(∀ c ∈ g, c.isDigit = true)

instance (g : Str) : Decidable (validName g) := by
  unfold validName
  infer_instance

/-- The separator `" and "` produced by joining an `and`-rule's tokens. -/
def sepAnd : Str := [' ', 'a', 'n', 'd', ' ']

/-- The separator `" or "` produced by joining an `or`-rule's tokens. -/
def sepOr : Str := [' ', 'o', 'r', ' ']

/-- The separator `" + "` left after operator substitution of `and`. -/
def sepPlus : Str := [' ', '+', ' ']

/-- The separator `" * "` left after operator substitution of `or`. -/
def sepStar : Str := [' ', '*', ' ']

/-- Tokens following the leading identifier of a `+`-chain. -/
def plusTail : List Str → List ATok
  | [] => []
  | g :: rest => .plus :: .sym g :: plusTail rest

/-- Tokens following the leading identifier of a `*`-chain. -/
def starTail : List Str → List ATok
  | [] => []
  | g :: rest => .star :: .sym g :: starTail rest

/-- The composed symbolic evaluation of `apply_gpr`: rewrite `Mul → Max`
and `Add → Min`, substitute the weight table, and let the library fold the
numeric nodes. -/
def gprEval (tbl : List (Str × ℚ)) (e : SymExpr) : SymExpr :=
  evalFold (subsW tbl (replace_MulMax_AddMin e))

/-- The left-associated `Add` chain produced by parsing `g1 + ... + gn`. -/
def addFold (g : Str) (rest : List Str) : SymExpr :=
  rest.foldl (fun a x => .add a (.sym x)) (.sym g)

/-- The left-associated `Mul` chain produced by parsing `g1 * ... * gn`. -/
def mulFold (g : Str) (rest : List Str) : SymExpr :=
  rest.foldl (fun a x => .mul a (.sym x)) (.sym g)

/-! ### String-replacement lemmas -/

theorem pyRepF_nilStr (old new : Str) (f : ℕ) : pyRepF old new f [] = [] := by
  cases f <;> rfl

theorem pyRepF_zero (old new s : Str) : pyRepF old new 0 s = s := rfl

theorem pyRepF_succ_cons (old new : Str) (f : ℕ) (c : Char) (rest : Str) :
    pyRepF old new (f + 1) (c :: rest) =
      if isPre old (c :: rest) then new ++ pyRepF old new f (List.drop old.length (c :: rest))
      else c :: pyRepF old new f rest := rfl

theorem containsSub_cons_false {pat : Str} {c : Char} {g : Str}
    (h : containsSub pat (c :: g) = false) :
    isPre pat (c :: g) = false ∧ containsSub pat g = false := by
  revert h
  simp [containsSub]

theorem isPre_or_false {c : Char} {g' tail : Str}
    (hg : isPre orL (c :: g') = false)
    (ht : tail = [] ∨ ∃ t', tail = ' ' :: t') :
    isPre orL (c :: (g' ++ tail)) = false := by
  cases g' with
  | nil =>
    rcases ht with rfl | ⟨t', rfl⟩
    · simp +decide [isPre, orL]
    · simp +decide [isPre, orL]
  | cons d g'' =>
    simp only [isPre, orL, List.cons_append] at hg ⊢
    simpa [isPre] using hg

theorem isPre_and_false {c : Char} {g' tail : Str}
    (hg : isPre andL (c :: g') = false)
    (ht : tail = [] ∨ ∃ t', tail = ' ' :: t') :
    isPre andL (c :: (g' ++ tail)) = false := by
  cases g' with
  | nil =>
    rcases ht with rfl | ⟨t', rfl⟩
    · simp +decide [isPre, andL]
    · simp +decide [isPre, andL]
  | cons d g'' =>
    cases g'' with
    | nil =>
      rcases ht with rfl | ⟨t', rfl⟩
      · simp +decide [isPre, andL]
      · simp +decide [isPre, andL]
    | cons e g''' =>
      simp only [isPre, andL, List.cons_append] at hg ⊢
      simpa [isPre] using hg

theorem pyRepF_step_or (g tail : Str) (f : ℕ)
    (hg : containsSub orL g = false)
    (ht : tail = [] ∨ ∃ t', tail = ' ' :: t') :
    pyRepF orL starL (f + g.length) (g ++ tail) = g ++ pyRepF orL starL f tail := by
  induction g with
  | nil => simp
  | cons c g' ih =>
    obtain ⟨h1, h2⟩ := containsSub_cons_false hg
    have hpre : isPre orL (c :: (g' ++ tail)) = false := isPre_or_false h1 ht
    have hfuel : f + (c :: g').length = (f + g'.length) + 1 := by
      simp only [List.length_cons]
      omega
    rw [List.cons_append, hfuel, pyRepF_succ_cons, if_neg (by simp [hpre]), ih h2]
    simp

theorem pyRepF_step_and (g tail : Str) (f : ℕ)
    (hg : containsSub andL g = false)
    (ht : tail = [] ∨ ∃ t', tail = ' ' :: t') :
    pyRepF andL plusL (f + g.length) (g ++ tail) = g ++ pyRepF andL plusL f tail := by
  induction g with
  | nil => simp
  | cons c g' ih =>
    obtain ⟨h1, h2⟩ := containsSub_cons_false hg
    have hpre : isPre andL (c :: (g' ++ tail)) = false := isPre_and_false h1 ht
    have hfuel : f + (c :: g').length = (f + g'.length) + 1 := by
      simp only [List.length_cons]
      omega
    rw [List.cons_append, hfuel, pyRepF_succ_cons, if_neg (by simp [hpre]), ih h2]
    simp

theorem pyRepF_or_skip_sepAnd (k : ℕ) (J : Str) :
    pyRepF orL starL (k + 1 + 1 + 1 + 1 + 1) (' ' :: 'a' :: 'n' :: 'd' :: ' ' :: J) =
      ' ' :: 'a' :: 'n' :: 'd' :: ' ' :: pyRepF orL starL k J := by
  simp +decide [pyRepF_succ_cons, orL, isPre]

theorem pyRepF_or_hit_sepOr (k : ℕ) (J : Str) :
    pyRepF orL starL (k + 1 + 1 + 1) (' ' :: 'o' :: 'r' :: ' ' :: J) =
      ' ' :: '*' :: ' ' :: pyRepF orL starL k J := by
  simp +decide [pyRepF_succ_cons, orL, starL, isPre]

theorem pyRepF_and_hit_sepAnd (k : ℕ) (J : Str) :
    pyRepF andL plusL (k + 1 + 1 + 1) (' ' :: 'a' :: 'n' :: 'd' :: ' ' :: J) =
      ' ' :: '+' :: ' ' :: pyRepF andL plusL k J := by
  simp +decide [pyRepF_succ_cons, andL, plusL, isPre]

theorem pyRepF_and_skip_sepStar (k : ℕ) (J : Str) :
    pyRepF andL plusL (k + 1 + 1 + 1) (' ' :: '*' :: ' ' :: J) =
      ' ' :: '*' :: ' ' :: pyRepF andL plusL k J := by
  simp +decide [pyRepF_succ_cons, andL, isPre]

theorem pyRepF_or_id_chain (gs : List Str) (h : ∀ g ∈ gs, containsSub orL g = false)
    (f : ℕ) :
    pyRepF orL starL (f + (joinSep sepAnd gs).length) (joinSep sepAnd gs) =
      joinSep sepAnd gs := by
  induction gs generalizing f with
  | nil => simp [joinSep, pyRepF_nilStr]
  | cons g rest ih =>
    cases rest with
    | nil =>
      simpa [joinSep, pyRepF_nilStr] using
        pyRepF_step_or g [] f (h g (by simp)) (Or.inl rfl)
    | cons g2 t =>
      have hg : containsSub orL g = false := h g (by simp)
      have hJ : joinSep sepAnd (g :: g2 :: t) = g ++ (sepAnd ++ joinSep sepAnd (g2 :: t)) := by
        simp [joinSep]
      rw [hJ]
      have e1 : f + (g ++ (sepAnd ++ joinSep sepAnd (g2 :: t))).length =
          (f + (joinSep sepAnd (g2 :: t)).length + 1 + 1 + 1 + 1 + 1) + g.length := by
        simp [sepAnd]
        omega
      rw [e1, pyRepF_step_or g _ _ hg
        (Or.inr ⟨'a' :: 'n' :: 'd' :: ' ' :: joinSep sepAnd (g2 :: t), by simp [sepAnd]⟩)]
      have e2 : sepAnd ++ joinSep sepAnd (g2 :: t) =
          ' ' :: 'a' :: 'n' :: 'd' :: ' ' :: joinSep sepAnd (g2 :: t) := by simp [sepAnd]
      rw [e2, pyRepF_or_skip_sepAnd, ih (fun x hx => h x (by simp [hx]))]

theorem pyRepF_and_chain (gs : List Str) (h : ∀ g ∈ gs, containsSub andL g = false)
    (f : ℕ) :
    pyRepF andL plusL (f + (joinSep sepAnd gs).length) (joinSep sepAnd gs) =
      joinSep sepPlus gs := by
  induction gs generalizing f with
  | nil => simp [joinSep, pyRepF_nilStr]
  | cons g rest ih =>
    cases rest with
    | nil =>
      simpa [joinSep, pyRepF_nilStr] using
        pyRepF_step_and g [] f (h g (by simp)) (Or.inl rfl)
    | cons g2 t =>
      have hg : containsSub andL g = false := h g (by simp)
      have hJ : joinSep sepAnd (g :: g2 :: t) = g ++ (sepAnd ++ joinSep sepAnd (g2 :: t)) := by
        simp [joinSep]
      rw [hJ]
      have e1 : f + (g ++ (sepAnd ++ joinSep sepAnd (g2 :: t))).length =
          (f + (joinSep sepAnd (g2 :: t)).length + 2 + 1 + 1 + 1) + g.length := by
        simp [sepAnd]
        omega
      rw [e1, pyRepF_step_and g _ _ hg
        (Or.inr ⟨'a' :: 'n' :: 'd' :: ' ' :: joinSep sepAnd (g2 :: t), by simp [sepAnd]⟩)]
      have e2 : sepAnd ++ joinSep sepAnd (g2 :: t) =
          ' ' :: 'a' :: 'n' :: 'd' :: ' ' :: joinSep sepAnd (g2 :: t) := by simp [sepAnd]
      rw [e2, pyRepF_and_hit_sepAnd]
      have e3 : f + (joinSep sepAnd (g2 :: t)).length + 2 =
          (f + 2) + (joinSep sepAnd (g2 :: t)).length := by omega
      rw [e3, ih (fun x hx => h x (by simp [hx]))]
      simp [joinSep, sepPlus]

theorem pyRepF_or_star_chain (gs : List Str) (h : ∀ g ∈ gs, containsSub orL g = false)
    (f : ℕ) :
    pyRepF orL starL (f + (joinSep sepOr gs).length) (joinSep sepOr gs) =
      joinSep sepStar gs := by
  induction gs generalizing f with
  | nil => simp [joinSep, pyRepF_nilStr]
  | cons g rest ih =>
    cases rest with
    | nil =>
      simpa [joinSep, pyRepF_nilStr] using
        pyRepF_step_or g [] f (h g (by simp)) (Or.inl rfl)
    | cons g2 t =>
      have hg : containsSub orL g = false := h g (by simp)
      have hJ : joinSep sepOr (g :: g2 :: t) = g ++ (sepOr ++ joinSep sepOr (g2 :: t)) := by
        simp [joinSep]
      rw [hJ]
      have e1 : f + (g ++ (sepOr ++ joinSep sepOr (g2 :: t))).length =
          (f + (joinSep sepOr (g2 :: t)).length + 1 + 1 + 1 + 1) + g.length := by
        simp [sepOr]
        omega
      rw [e1, pyRepF_step_or g _ _ hg
        (Or.inr ⟨'o' :: 'r' :: ' ' :: joinSep sepOr (g2 :: t), by simp [sepOr]⟩)]
      have e2 : sepOr ++ joinSep sepOr (g2 :: t) =
          ' ' :: 'o' :: 'r' :: ' ' :: joinSep sepOr (g2 :: t) := by simp [sepOr]
      rw [e2]
      have e3 : f + (joinSep sepOr (g2 :: t)).length + 1 + 1 + 1 + 1 =
          (f + 1 + (joinSep sepOr (g2 :: t)).length) + 1 + 1 + 1 := by omega
      rw [e3, pyRepF_or_hit_sepOr, ih (fun x hx => h x (by simp [hx]))]
      simp [joinSep, sepStar]

theorem pyRepF_and_id_star_chain (gs : List Str) (h : ∀ g ∈ gs, containsSub andL g = false)
    (f : ℕ) :
    pyRepF andL plusL (f + (joinSep sepStar gs).length) (joinSep sepStar gs) =
      joinSep sepStar gs := by
  induction gs generalizing f with
  | nil => simp [joinSep, pyRepF_nilStr]
  | cons g rest ih =>
    cases rest with
    | nil =>
      simpa [joinSep, pyRepF_nilStr] using
        pyRepF_step_and g [] f (h g (by simp)) (Or.inl rfl)
    | cons g2 t =>
      have hg : containsSub andL g = false := h g (by simp)
      have hJ : joinSep sepStar (g :: g2 :: t) = g ++ (sepStar ++ joinSep sepStar (g2 :: t)) := by
        simp [joinSep]
      rw [hJ]
      have e1 : f + (g ++ (sepStar ++ joinSep sepStar (g2 :: t))).length =
          (f + (joinSep sepStar (g2 :: t)).length + 1 + 1 + 1) + g.length := by
        simp [sepStar]
        omega
      rw [e1, pyRepF_step_and g _ _ hg
        (Or.inr ⟨'*' :: ' ' :: joinSep sepStar (g2 :: t), by simp [sepStar]⟩)]
      have e2 : sepStar ++ joinSep sepStar (g2 :: t) =
          ' ' :: '*' :: ' ' :: joinSep sepStar (g2 :: t) := by simp [sepStar]
      rw [e2, pyRepF_and_skip_sepStar, ih (fun x hx => h x (by simp [hx]))]

/-! ### Joining and operator substitution on rule token chains -/

theorem joinSep_interleave (op : Str) (gs : List Str) :
    joinSep [' '] (interleaveOp op gs) = joinSep ([' '] ++ op ++ [' ']) gs := by
  induction gs with
  | nil => rfl
  | cons g rest ih =>
    cases rest with
    | nil => rfl
    | cons g2 t =>
      obtain ⟨x, xs, hx⟩ : ∃ x xs, interleaveOp op (g2 :: t) = x :: xs := by
        cases t
        · exact ⟨g2, [], rfl⟩
        · exact ⟨g2, _, rfl⟩
      rw [show interleaveOp op (g :: g2 :: t) = g :: op :: interleaveOp op (g2 :: t) from rfl,
        hx]
      show g ++ [' '] ++ (op ++ [' '] ++ joinSep [' '] (x :: xs)) = _
      rw [← hx, ih]
      show g ++ [' '] ++ (op ++ [' '] ++ joinSep ([' '] ++ op ++ [' ']) (g2 :: t)) =
        g ++ ([' '] ++ op ++ [' ']) ++ joinSep ([' '] ++ op ++ [' ']) (g2 :: t)
      simp

theorem opSubst_and_rule (gs : List Str)
    (h : ∀ g ∈ gs, containsSub orL g = false ∧ containsSub andL g = false) :
    opSubst (joinSep [' '] (interleaveOp andL gs)) = joinSep sepPlus gs := by
  have h1 : joinSep [' '] (interleaveOp andL gs) = joinSep sepAnd gs := by
    rw [joinSep_interleave]
    rfl
  have hOr : pyReplace (joinSep sepAnd gs) orL starL = joinSep sepAnd gs := by
    unfold pyReplace
    rw [show (joinSep sepAnd gs).length + 1 = 1 + (joinSep sepAnd gs).length from by omega]
    exact pyRepF_or_id_chain gs (fun g hg => (h g hg).1) 1
  have hAnd : pyReplace (joinSep sepAnd gs) andL plusL = joinSep sepPlus gs := by
    unfold pyReplace
    rw [show (joinSep sepAnd gs).length + 1 = 1 + (joinSep sepAnd gs).length from by omega]
    exact pyRepF_and_chain gs (fun g hg => (h g hg).2) 1
  rw [h1, opSubst, hOr, hAnd]

theorem opSubst_or_rule (gs : List Str)
    (h : ∀ g ∈ gs, containsSub orL g = false ∧ containsSub andL g = false) :
    opSubst (joinSep [' '] (interleaveOp orL gs)) = joinSep sepStar gs := by
  have h1 : joinSep [' '] (interleaveOp orL gs) = joinSep sepOr gs := by
    rw [joinSep_interleave]
    rfl
  have hOr : pyReplace (joinSep sepOr gs) orL starL = joinSep sepStar gs := by
    unfold pyReplace
    rw [show (joinSep sepOr gs).length + 1 = 1 + (joinSep sepOr gs).length from by omega]
    exact pyRepF_or_star_chain gs (fun g hg => (h g hg).1) 1
  have hAnd : pyReplace (joinSep sepStar gs) andL plusL = joinSep sepStar gs := by
    unfold pyReplace
    rw [show (joinSep sepStar gs).length + 1 = 1 + (joinSep sepStar gs).length from by omega]
    exact pyRepF_and_id_star_chain gs (fun g hg => (h g hg).2) 1
  rw [h1, opSubst, hOr, hAnd]

/-! ### Lexer lemmas -/

theorem lexF_nil (f : ℕ) : lexF f [] = [] := by
  cases f <;> rfl

theorem lexF_succ_cons (f : ℕ) (c : Char) (rest : Str) :
    lexF (f + 1) (c :: rest) =
      if c = ' ' then lexF f rest
      else if c = '+' then .plus :: lexF f rest
      else if c = '*' then .star :: lexF f rest
      else if c = '(' then .lpar :: lexF f rest
      else if c = ')' then .rpar :: lexF f rest
      else .sym (c :: rest.takeWhile nameChar) :: lexF f (rest.dropWhile nameChar) := rfl

theorem takeWhile_append_all {p : Char → Bool} {a : Str} (b : Str)
    (h : ∀ c ∈ a, p c = true) :
    (a ++ b).takeWhile p = a ++ b.takeWhile p := by
  induction a with
  | nil => simp
  | cons c a' ih =>
    rw [List.cons_append, List.takeWhile_cons, if_pos (h c (by simp)),
      ih (fun x hx => h x (by simp [hx]))]
    rfl

theorem dropWhile_append_all {p : Char → Bool} {a : Str} (b : Str)
    (h : ∀ c ∈ a, p c = true) :
    (a ++ b).dropWhile p = b.dropWhile p := by
  induction a with
  | nil => simp
  | cons c a' ih =>
    rw [List.cons_append, List.dropWhile_cons, if_pos (h c (by simp)),
      ih (fun x hx => h x (by simp [hx]))]

theorem length_dropWhile_le (p : Char → Bool) (l : Str) :
    (l.dropWhile p).length ≤ l.length := by
  induction l with
  | nil => simp
  | cons c l' ih =>
    rw [List.dropWhile_cons]
    split
    · exact Nat.le_trans ih (by simp)
    · simp

theorem lexF_name (g tail : Str) (f : ℕ) (hne : g ≠ [])
    (hall : ∀ c ∈ g, nameChar c = true)
    (ht : tail = [] ∨ ∃ t', tail = ' ' :: t') :
    lexF (f + 1) (g ++ tail) = .sym g :: lexF f tail := by
  obtain ⟨c, g', rfl⟩ : ∃ c g', g = c :: g' := by
    cases g
    · exact absurd rfl hne
    · exact ⟨_, _, rfl⟩
  have hc : nameChar c = true := hall c (by simp)
  have hc' : ¬(c = ' ') ∧ ¬(c = '+') ∧ ¬(c = '*') ∧ ¬(c = '(') ∧ ¬(c = ')') := by
    simp only [nameChar, Bool.not_eq_true', Bool.or_eq_false_iff, beq_eq_false_iff_ne,
      ne_eq] at hc
    tauto
  rw [List.cons_append, lexF_succ_cons, if_neg hc'.1, if_neg hc'.2.1, if_neg hc'.2.2.1,
    if_neg hc'.2.2.2.1, if_neg hc'.2.2.2.2]
  have htw : (g' ++ tail).takeWhile nameChar = g' := by
    rw [takeWhile_append_all tail (fun x hx => hall x (by simp [hx]))]
    rcases ht with rfl | ⟨t', rfl⟩
    · simp
    · rw [List.takeWhile_cons, if_neg (by simp +decide [nameChar])]
      simp
  have hdw : (g' ++ tail).dropWhile nameChar = tail := by
    rw [dropWhile_append_all tail (fun x hx => hall x (by simp [hx]))]
    rcases ht with rfl | ⟨t', rfl⟩
    · simp
    · rw [List.dropWhile_cons, if_neg (by simp +decide [nameChar])]
  rw [htw, hdw]

theorem lexF_plus_chain (gs : List Str)
    (h : ∀ g ∈ gs, g ≠ [] ∧ ∀ c ∈ g, nameChar c = true) (f : ℕ) :
    lexF (f + 4 * gs.length + 1) (joinSep sepPlus gs) = tokChain .plus gs := by
  induction gs generalizing f with
  | nil => simp [joinSep, lexF_nil, tokChain]
  | cons g rest ih =>
    cases rest with
    | nil =>
      have e1 : f + 4 * ([g] : List Str).length + 1 = (f + 4 * ([g] : List Str).length) + 1 := rfl
      rw [show joinSep sepPlus [g] = g ++ ([] : Str) from by simp [joinSep], e1,
        lexF_name g [] _ (h g (by simp)).1 (h g (by simp)).2 (Or.inl rfl)]
      simp [lexF_nil, tokChain]
    | cons g2 t =>
      have hJ : joinSep sepPlus (g :: g2 :: t) =
          g ++ (' ' :: '+' :: ' ' :: joinSep sepPlus (g2 :: t)) := by
        simp [joinSep, sepPlus]
      rw [hJ]
      have e1 : f + 4 * (g :: g2 :: t).length + 1 =
          (f + 4 * (g2 :: t).length + 1 + 1 + 1 + 1) + 1 := by
        simp only [List.length_cons]
        omega
      rw [e1, lexF_name g _ _ (h g (by simp)).1 (h g (by simp)).2
        (Or.inr ⟨'+' :: ' ' :: joinSep sepPlus (g2 :: t), rfl⟩)]
      rw [lexF_succ_cons, if_pos rfl]
      rw [lexF_succ_cons, if_neg (by decide), if_pos rfl]
      rw [lexF_succ_cons, if_pos rfl]
      rw [ih (fun x hx => h x (by simp [hx]))]
      simp [tokChain]

theorem lexF_star_chain (gs : List Str)
    (h : ∀ g ∈ gs, g ≠ [] ∧ ∀ c ∈ g, nameChar c = true) (f : ℕ) :
    lexF (f + 4 * gs.length + 1) (joinSep sepStar gs) = tokChain .star gs := by
  induction gs generalizing f with
  | nil => simp [joinSep, lexF_nil, tokChain]
  | cons g rest ih =>
    cases rest with
    | nil =>
      have e1 : f + 4 * ([g] : List Str).length + 1 = (f + 4 * ([g] : List Str).length) + 1 := rfl
      rw [show joinSep sepStar [g] = g ++ ([] : Str) from by simp [joinSep], e1,
        lexF_name g [] _ (h g (by simp)).1 (h g (by simp)).2 (Or.inl rfl)]
      simp [lexF_nil, tokChain]
    | cons g2 t =>
      have hJ : joinSep sepStar (g :: g2 :: t) =
          g ++ (' ' :: '*' :: ' ' :: joinSep sepStar (g2 :: t)) := by
        simp [joinSep, sepStar]
      rw [hJ]
      have e1 : f + 4 * (g :: g2 :: t).length + 1 =
          (f + 4 * (g2 :: t).length + 1 + 1 + 1 + 1) + 1 := by
        simp only [List.length_cons]
        omega
      rw [e1, lexF_name g _ _ (h g (by simp)).1 (h g (by simp)).2
        (Or.inr ⟨'*' :: ' ' :: joinSep sepStar (g2 :: t), rfl⟩)]
      rw [lexF_succ_cons, if_pos rfl]
      rw [lexF_succ_cons, if_neg (by decide), if_neg (by decide), if_pos rfl]
      rw [lexF_succ_cons, if_pos rfl]
      rw [ih (fun x hx => h x (by simp [hx]))]
      simp [tokChain]

theorem lexF_mono (f1 : ℕ) : ∀ (s : Str) (f2 : ℕ), s.length ≤ f1 → s.length ≤ f2 →
    lexF f1 s = lexF f2 s := by
  induction f1 with
  | zero =>
    intro s f2 h1 _
    have : s = [] := List.eq_nil_of_length_eq_zero (Nat.le_zero.mp h1)
    subst this
    rw [lexF_nil, lexF_nil]
  | succ f1' ih =>
    intro s f2 h1 h2
    cases s with
    | nil => rw [lexF_nil, lexF_nil]
    | cons c rest =>
      cases f2 with
      | zero => simp at h2
      | succ f2' =>
        have hr1 : rest.length ≤ f1' := by simp at h1; omega
        have hr2 : rest.length ≤ f2' := by simp at h2; omega
        have hd1 : (rest.dropWhile nameChar).length ≤ f1' :=
          Nat.le_trans (length_dropWhile_le _ _) hr1
        have hd2 : (rest.dropWhile nameChar).length ≤ f2' :=
          Nat.le_trans (length_dropWhile_le _ _) hr2
        rw [lexF_succ_cons, lexF_succ_cons]
        split_ifs <;>
          simp [ih rest f2' hr1 hr2, ih (rest.dropWhile nameChar) f2' hd1 hd2]

/-! ### Parser lemmas -/

theorem lexArith_plus_chain (gs : List Str)
    (h : ∀ g ∈ gs, g ≠ [] ∧ ∀ c ∈ g, nameChar c = true) :
    lexArith (joinSep sepPlus gs) = tokChain .plus gs := by
  unfold lexArith
  rw [lexF_mono ((joinSep sepPlus gs).length + 1) (joinSep sepPlus gs)
    ((joinSep sepPlus gs).length + 4 * gs.length + 1) (by omega) (by omega)]
  exact lexF_plus_chain gs h _

theorem lexArith_star_chain (gs : List Str)
    (h : ∀ g ∈ gs, g ≠ [] ∧ ∀ c ∈ g, nameChar c = true) :
    lexArith (joinSep sepStar gs) = tokChain .star gs := by
  unfold lexArith
  rw [lexF_mono ((joinSep sepStar gs).length + 1) (joinSep sepStar gs)
    ((joinSep sepStar gs).length + 4 * gs.length + 1) (by omega) (by omega)]
  exact lexF_star_chain gs h _

theorem parseF_succ_expr (f : ℕ) (ts : List ATok) :
    parseF (f + 1) .expr ts =
      (match parseF f .term ts with
      | some (e, r) => parseF f (.exprAux e) r
      | none => none) := rfl

theorem parseF_succ_term (f : ℕ) (ts : List ATok) :
    parseF (f + 1) .term ts =
      (match parseF f .factor ts with
      | some (e, r) => parseF f (.termAux e) r
      | none => none) := rfl

theorem parseF_succ_exprAux_plus (f : ℕ) (acc : SymExpr) (rest : List ATok) :
    parseF (f + 1) (.exprAux acc) (.plus :: rest) =
      (match parseF f .term rest with
      | some (e, r) => parseF f (.exprAux (.add acc e)) r
      | none => none) := rfl

theorem parseF_succ_termAux_star (f : ℕ) (acc : SymExpr) (rest : List ATok) :
    parseF (f + 1) (.termAux acc) (.star :: rest) =
      (match parseF f .factor rest with
      | some (e, r) => parseF f (.termAux (.mul acc e)) r
      | none => none) := rfl

theorem parseF_succ_factor_sym (f : ℕ) (g : Str) (rest : List ATok) :
    parseF (f + 1) .factor (.sym g :: rest) = some (mkLeaf g, rest) := rfl

theorem parseF_exprAux_stop (f : ℕ) (acc : SymExpr) (ts : List ATok)
    (h : ts.head? ≠ some .plus) : parseF (f + 1) (.exprAux acc) ts = some (acc, ts) := by
  cases ts with
  | nil => rfl
  | cons a rest =>
    cases a with
    | plus => simp at h
    | sym s => rfl
    | star => rfl
    | lpar => rfl
    | rpar => rfl

theorem parseF_termAux_stop (f : ℕ) (acc : SymExpr) (ts : List ATok)
    (h : ts.head? ≠ some .star) : parseF (f + 1) (.termAux acc) ts = some (acc, ts) := by
  cases ts with
  | nil => rfl
  | cons a rest =>
    cases a with
    | star => simp at h
    | sym s => rfl
    | plus => rfl
    | lpar => rfl
    | rpar => rfl

theorem plusTail_head_ne_star (gs : List Str) : (plusTail gs).head? ≠ some .star := by
  cases gs <;> simp [plusTail]

theorem starTail_head_ne_plus (gs : List Str) : (starTail gs).head? ≠ some .plus := by
  cases gs <;> simp [starTail]

theorem parseF_term_sym (f : ℕ) (g : Str) (r : List ATok) (hr : r.head? ≠ some .star) :
    parseF (f + 1 + 1 + 1) .term (.sym g :: r) = some (mkLeaf g, r) := by
  rw [parseF_succ_term, parseF_succ_factor_sym]
  show parseF (f + 1 + 1) (.termAux (mkLeaf g)) r = some (mkLeaf g, r)
  exact parseF_termAux_stop (f + 1) (mkLeaf g) r hr

theorem tokChain_plus_eq (g : Str) (rest : List Str) :
    tokChain .plus (g :: rest) = .sym g :: plusTail rest := by
  induction rest generalizing g with
  | nil => rfl
  | cons g2 t ih => rw [show tokChain ATok.plus (g :: g2 :: t) =
      .sym g :: .plus :: tokChain .plus (g2 :: t) from rfl, ih g2]; rfl

theorem tokChain_star_eq (g : Str) (rest : List Str) :
    tokChain .star (g :: rest) = .sym g :: starTail rest := by
  induction rest generalizing g with
  | nil => rfl
  | cons g2 t ih => rw [show tokChain ATok.star (g :: g2 :: t) =
      .sym g :: .star :: tokChain .star (g2 :: t) from rfl, ih g2]; rfl

theorem parseF_exprAux_chain (gs : List Str) : ∀ (acc : SymExpr) (f : ℕ),
    4 * gs.length + 4 ≤ f →
    parseF f (.exprAux acc) (plusTail gs) =
      some (gs.foldl (fun a x => .add a (mkLeaf x)) acc, []) := by
  induction gs with
  | nil =>
    intro acc f hf
    obtain ⟨k, rfl⟩ : ∃ k, f = k + 1 := ⟨f - 1, by omega⟩
    rw [show plusTail [] = [] from rfl, parseF_exprAux_stop k acc [] (by simp)]
    rfl
  | cons g rest ih =>
    intro acc f hf
    obtain ⟨k, rfl⟩ : ∃ k, f = k + 1 + 1 + 1 + 1 := ⟨f - 4, by omega⟩
    rw [show plusTail (g :: rest) = .plus :: .sym g :: plusTail rest from rfl,
      parseF_succ_exprAux_plus,
      parseF_term_sym k g (plusTail rest) (plusTail_head_ne_star rest)]
    show parseF (k + 1 + 1 + 1) (.exprAux (.add acc (mkLeaf g))) (plusTail rest) = _
    rw [ih (.add acc (mkLeaf g)) (k + 1 + 1 + 1) (by simp at hf; omega)]
    rfl

theorem parseF_expr_plus_chain (g : Str) (rest : List Str) (f : ℕ)
    (hf : 4 * rest.length + 4 + 4 ≤ f) :
    parseF f .expr (tokChain .plus (g :: rest)) =
      some (rest.foldl (fun a x => .add a (mkLeaf x)) (mkLeaf g), []) := by
  obtain ⟨k, rfl⟩ : ∃ k, f = k + 1 + 1 + 1 + 1 := ⟨f - 4, by omega⟩
  rw [tokChain_plus_eq, parseF_succ_expr,
    parseF_term_sym k g (plusTail rest) (plusTail_head_ne_star rest)]
  show parseF (k + 1 + 1 + 1) (.exprAux (mkLeaf g)) (plusTail rest) = _
  exact parseF_exprAux_chain rest (mkLeaf g) (k + 1 + 1 + 1) (by omega)

theorem parseF_termAux_chain (gs : List Str) : ∀ (acc : SymExpr) (f : ℕ),
    2 * gs.length + 2 ≤ f →
    parseF f (.termAux acc) (starTail gs) =
      some (gs.foldl (fun a x => .mul a (mkLeaf x)) acc, []) := by
  induction gs with
  | nil =>
    intro acc f hf
    obtain ⟨k, rfl⟩ : ∃ k, f = k + 1 := ⟨f - 1, by omega⟩
    rw [show starTail [] = [] from rfl, parseF_termAux_stop k acc [] (by simp)]
    rfl
  | cons g rest ih =>
    intro acc f hf
    obtain ⟨k, rfl⟩ : ∃ k, f = k + 1 + 1 := ⟨f - 2, by omega⟩
    rw [show starTail (g :: rest) = .star :: .sym g :: starTail rest from rfl,
      parseF_succ_termAux_star, parseF_succ_factor_sym]
    show parseF (k + 1) (.termAux (.mul acc (mkLeaf g))) (starTail rest) = _
    rw [ih (.mul acc (mkLeaf g)) (k + 1) (by simp at hf; omega)]
    rfl

theorem parseF_expr_star_chain (g : Str) (rest : List Str) (f : ℕ)
    (hf : 2 * rest.length + 2 + 4 ≤ f) :
    parseF f .expr (tokChain .star (g :: rest)) =
      some (rest.foldl (fun a x => .mul a (mkLeaf x)) (mkLeaf g), []) := by
  obtain ⟨k, rfl⟩ : ∃ k, f = k + 1 + 1 + 1 + 1 := ⟨f - 4, by omega⟩
  rw [tokChain_star_eq, parseF_succ_expr, parseF_succ_term, parseF_succ_factor_sym]
  show (match parseF (k + 1 + 1) (.termAux (mkLeaf g)) (starTail rest) with
      | some (e, r) => parseF (k + 1 + 1 + 1) (.exprAux e) r
      | none => none) = _
  rw [parseF_termAux_chain rest (mkLeaf g) (k + 1 + 1) (by omega)]
  show parseF (k + 1 + 1 + 1) (.exprAux
    (rest.foldl (fun a x => .mul a (mkLeaf x)) (mkLeaf g))) [] = _
  rw [parseF_exprAux_stop (k + 1 + 1) _ [] (by simp)]

/-! ### sympify on rule chains -/

theorem plusTail_length (gs : List Str) : (plusTail gs).length = 2 * gs.length := by
  induction gs with
  | nil => rfl
  | cons g rest ih => simp [plusTail, ih]; omega

theorem starTail_length (gs : List Str) : (starTail gs).length = 2 * gs.length := by
  induction gs with
  | nil => rfl
  | cons g rest ih => simp [starTail, ih]; omega

theorem mkLeaf_valid (x : Str) (hx : validName x) : mkLeaf x = .sym x := by
  obtain ⟨-, -, -, -, hd⟩ := hx
  unfold mkLeaf
  rw [if_neg]
  simp only [Bool.and_eq_true, List.all_eq_true, not_and]
  intro _ hh
  exact hd hh

theorem foldl_mkLeaf_eq (k : SymExpr → SymExpr → SymExpr) (rest : List Str)
    (h : ∀ x ∈ rest, validName x) : ∀ acc : SymExpr,
    rest.foldl (fun a x => k a (mkLeaf x)) acc = rest.foldl (fun a x => k a (.sym x)) acc := by
  induction rest with
  | nil => intro acc; rfl
  | cons x rest ih =>
    intro acc
    rw [List.foldl_cons, List.foldl_cons, mkLeaf_valid x (h x (by simp))]
    exact ih (fun y hy => h y (by simp [hy])) _

theorem sympify_and_rule (g : Str) (rest : List Str)
    (h : ∀ x ∈ g :: rest, validName x) :
    sympify (joinSep sepPlus (g :: rest)) = some (addFold g rest) := by
  have hlex : lexArith (joinSep sepPlus (g :: rest)) = tokChain .plus (g :: rest) :=
    lexArith_plus_chain _ (fun x hx => ⟨(h x hx).1, (h x hx).2.1⟩)
  unfold sympify
  rw [hlex, tokChain_plus_eq, show (ATok.sym g :: plusTail rest).length =
    (plusTail rest).length + 1 from by simp, plusTail_length, ← tokChain_plus_eq,
    parseF_expr_plus_chain g rest _ (by omega)]
  rw [foldl_mkLeaf_eq _ rest (fun x hx => h x (by simp [hx])),
    mkLeaf_valid g (h g (by simp))]
  rfl

theorem sympify_or_rule (g : Str) (rest : List Str)
    (h : ∀ x ∈ g :: rest, validName x) :
    sympify (joinSep sepStar (g :: rest)) = some (mulFold g rest) := by
  have hlex : lexArith (joinSep sepStar (g :: rest)) = tokChain .star (g :: rest) :=
    lexArith_star_chain _ (fun x hx => ⟨(h x hx).1, (h x hx).2.1⟩)
  unfold sympify
  rw [hlex, tokChain_star_eq, show (ATok.sym g :: starTail rest).length =
    (starTail rest).length + 1 from by simp, starTail_length, ← tokChain_star_eq,
    parseF_expr_star_chain g rest _ (by omega)]
  rw [foldl_mkLeaf_eq _ rest (fun x hx => h x (by simp [hx])),
    mkLeaf_valid g (h g (by simp))]
  rfl

/-! ### Symbolic evaluation lemmas -/

theorem gprEval_sym (tbl : List (Str × ℚ)) (g : Str) (v : ℚ)
    (h : lookupQ tbl g = some v) : gprEval tbl (.sym g) = .num v := by
  simp [gprEval, replace_MulMax_AddMin, subsW, h, evalFold]

theorem gprEval_add_num (tbl : List (Str × ℚ)) (a b : SymExpr) (x y : ℚ)
    (ha : gprEval tbl a = .num x) (hb : gprEval tbl b = .num y) :
    gprEval tbl (.add a b) = .num (min x y) := by
  unfold gprEval at ha hb ⊢
  simp only [replace_MulMax_AddMin, subsW, evalFold, ha, hb]

theorem gprEval_mul_num (tbl : List (Str × ℚ)) (a b : SymExpr) (x y : ℚ)
    (ha : gprEval tbl a = .num x) (hb : gprEval tbl b = .num y) :
    gprEval tbl (.mul a b) = .num (max x y) := by
  unfold gprEval at ha hb ⊢
  simp only [replace_MulMax_AddMin, subsW, evalFold, ha, hb]

theorem gprEval_addFold (tbl : List (Str × ℚ)) (w : Str → ℚ) (rest : List Str)
    (h : ∀ x ∈ rest, lookupQ tbl x = some (w x)) : ∀ (acc : SymExpr) (q : ℚ),
    gprEval tbl acc = .num q →
    gprEval tbl (rest.foldl (fun a x => .add a (.sym x)) acc) =
      .num ((rest.map w).foldl min q) := by
  induction rest with
  | nil =>
    intro acc q hq
    simpa using hq
  | cons x rest ih =>
    intro acc q hq
    rw [List.foldl_cons, List.map_cons, List.foldl_cons]
    exact ih (fun y hy => h y (by simp [hy])) _ _
      (gprEval_add_num tbl acc (.sym x) q (w x) hq (gprEval_sym tbl x (w x) (h x (by simp))))

theorem gprEval_mulFold (tbl : List (Str × ℚ)) (w : Str → ℚ) (rest : List Str)
    (h : ∀ x ∈ rest, lookupQ tbl x = some (w x)) : ∀ (acc : SymExpr) (q : ℚ),
    gprEval tbl acc = .num q →
    gprEval tbl (rest.foldl (fun a x => .mul a (.sym x)) acc) =
      .num ((rest.map w).foldl max q) := by
  induction rest with
  | nil =>
    intro acc q hq
    simpa using hq
  | cons x rest ih =>
    intro acc q hq
    rw [List.foldl_cons, List.map_cons, List.foldl_cons]
    exact ih (fun y hy => h y (by simp [hy])) _ _
      (gprEval_mul_num tbl acc (.sym x) q (w x) hq (gprEval_sym tbl x (w x) (h x (by simp))))

/-! ### Weight-table lemmas -/

theorem lookupQ_map_self (f : Str → ℚ) (gl : List Str) (g : Str) (hg : g ∈ gl) :
    lookupQ (gl.map (fun x => (x, f x))) g = some (f g) := by
  induction gl with
  | nil => simp at hg
  | cons x rest ih =>
    by_cases hx : x = g
    · subst hx
      simp [lookupQ]
    · have hmem : g ∈ rest := by
        rcases List.mem_cons.mp hg with rfl | hmem
        · exact absurd rfl hx
        · exact hmem
      simpa [lookupQ, hx] using ih hmem

theorem flipW_nonneg (v : ℚ) (h : 0 ≤ v) : flipW v = v := by
  unfold flipW
  rw [if_neg (not_lt.mpr h)]

theorem negweightsOf_nonneg (wt : List (Str × ℚ)) (gl : List Str)
    (h : ∀ g ∈ gl, 0 ≤ lookupD wt g) : negweightsOf wt gl = [] := by
  unfold negweightsOf
  rw [List.filterMap_eq_nil_iff]
  intro a ha
  obtain ⟨x, hx, rfl⟩ := List.mem_map.mp ha
  rw [if_neg (not_lt.mpr (h x hx))]

theorem unflip_num_nilneg (q : ℚ) : unflip (.num q) [] = .num q := by
  simp [unflip]

/-! ### Evaluation of pure and-rules and or-rules -/

theorem eval_gpr_rule_and (wt : List (Str × ℚ)) (g : Str) (rest gl : List Str)
    (hv : ∀ x ∈ g :: rest, validName x)
    (hsub : ∀ x ∈ g :: rest, x ∈ gl)
    (hnn : ∀ x ∈ gl, 0 ≤ lookupD wt x) :
    eval_gpr_rule wt (interleaveOp andL (g :: rest)) gl =
      some (.num (minFold ((g :: rest).map (lookupD wt)))) := by
  have hop : opSubst (joinSep [' '] (interleaveOp andL (g :: rest))) =
      joinSep sepPlus (g :: rest) :=
    opSubst_and_rule _ (fun x hx => ⟨(hv x hx).2.2.1, (hv x hx).2.2.2.1⟩)
  have hsym : sympify (joinSep sepPlus (g :: rest)) = some (addFold g rest) :=
    sympify_and_rule g rest hv
  have hlook : ∀ x ∈ g :: rest, lookupQ (adjustedWeights wt gl) x = some (lookupD wt x) := by
    intro x hx
    have h1 : lookupQ (adjustedWeights wt gl) x = some (flipW (lookupD wt x)) :=
      lookupQ_map_self (fun y => flipW (lookupD wt y)) gl x (hsub x hx)
    rwa [flipW_nonneg _ (hnn x (hsub x hx))] at h1
  have hev : gprEval (adjustedWeights wt gl) (addFold g rest) =
      .num ((rest.map (lookupD wt)).foldl min (lookupD wt g)) := by
    unfold addFold
    exact gprEval_addFold _ _ rest (fun y hy => hlook y (by simp [hy])) _ _
      (gprEval_sym _ _ _ (hlook g (by simp)))
  unfold eval_gpr_rule
  rw [hop, hsym]
  show some (unflip (evalFold (subsW (adjustedWeights wt gl)
    (replace_MulMax_AddMin (addFold g rest)))) (negweightsOf wt gl)) = _
  rw [show evalFold (subsW (adjustedWeights wt gl) (replace_MulMax_AddMin (addFold g rest))) =
    gprEval (adjustedWeights wt gl) (addFold g rest) from rfl, hev,
    negweightsOf_nonneg wt gl hnn, unflip_num_nilneg]
  rfl

theorem eval_gpr_rule_or (wt : List (Str × ℚ)) (g : Str) (rest gl : List Str)
    (hv : ∀ x ∈ g :: rest, validName x)
    (hsub : ∀ x ∈ g :: rest, x ∈ gl)
    (hnn : ∀ x ∈ gl, 0 ≤ lookupD wt x) :
    eval_gpr_rule wt (interleaveOp orL (g :: rest)) gl =
      some (.num (maxFold ((g :: rest).map (lookupD wt)))) := by
  have hop : opSubst (joinSep [' '] (interleaveOp orL (g :: rest))) =
      joinSep sepStar (g :: rest) :=
    opSubst_or_rule _ (fun x hx => ⟨(hv x hx).2.2.1, (hv x hx).2.2.2.1⟩)
  have hsym : sympify (joinSep sepStar (g :: rest)) = some (mulFold g rest) :=
    sympify_or_rule g rest hv
  have hlook : ∀ x ∈ g :: rest, lookupQ (adjustedWeights wt gl) x = some (lookupD wt x) := by
    intro x hx
    have h1 : lookupQ (adjustedWeights wt gl) x = some (flipW (lookupD wt x)) :=
      lookupQ_map_self (fun y => flipW (lookupD wt y)) gl x (hsub x hx)
    rwa [flipW_nonneg _ (hnn x (hsub x hx))] at h1
  have hev : gprEval (adjustedWeights wt gl) (mulFold g rest) =
      .num ((rest.map (lookupD wt)).foldl max (lookupD wt g)) := by
    unfold mulFold
    exact gprEval_mulFold _ _ rest (fun y hy => hlook y (by simp [hy])) _ _
      (gprEval_sym _ _ _ (hlook g (by simp)))
  unfold eval_gpr_rule
  rw [hop, hsym]
  show some (unflip (evalFold (subsW (adjustedWeights wt gl)
    (replace_MulMax_AddMin (mulFold g rest)))) (negweightsOf wt gl)) = _
  rw [show evalFold (subsW (adjustedWeights wt gl) (replace_MulMax_AddMin (mulFold g rest))) =
    gprEval (adjustedWeights wt gl) (mulFold g rest) from rfl, hev,
    negweightsOf_nonneg wt gl hnn, unflip_num_nilneg]
  rfl

/-! ### Claim theorems -/

/-- C1 counterexample: for the reaction with rule `A and B` and gene
weights `{A: -3, B: 2}`, `apply_gpr` (under the `human1` convention)
computes the weight `2`, but `min(weight(A), weight(B)) = -3`, so the
claimed equality with the minimum fails. -/
theorem c1_and_min_counterexample :
    apply_gpr [⟨['r', '1'], [['A'], ['B']], ['A', ' ', 'a', 'n', 'd', ' ', 'B']⟩]
      [(['A'], -3), (['B'], 2)] human1L = some [(['r', '1'], .num 2)] ∧
    min (-3 : ℚ) 2 ≠ 2 := by
  constructor
  · have hprep : prepare_expr_split_gen_list
        ⟨['r', '1'], [['A'], ['B']], ['A', ' ', 'a', 'n', 'd', ' ', 'B']⟩ human1L =
        ⟨some [['A'], andL, ['B']], some [['A'], ['B']], []⟩ := by decide
    have heval : eval_gpr_rule [(['A'], -3), (['B'], 2)] [['A'], andL, ['B']]
        [['A'], ['B']] = some (.num 2) := by
      have hs : sympify (opSubst (joinSep [' '] [['A'], andL, ['B']]))
          = some (.add (.sym ['A']) (.sym ['B'])) := by decide
      rw [eval_gpr_rule, hs]
      simp +decide only [adjustedWeights, negweightsOf, new_weightsOf, flipW, lookupD,
        lookupQ, subsW, replace_MulMax_AddMin, evalFold, unflip, List.map,
        List.filterMap, Option.getD]
      norm_num [eps, min_def, max_def]
    simp only [apply_gpr, apply_gpr_reaction, hprep]
    rw [if_pos (by decide)]
    simp only [heval]
  · norm_num [min_def]

/-- C1 (amended): for a reaction whose rule tokenizes (under any supported
naming convention) to distinct valid gene identifiers joined only by
`and`, all of which belong to the reaction's gene set, and whose looked-up
gene weights are all nonnegative, `apply_gpr` assigns the reaction the
weight `min` of the genes' looked-up weights. -/
theorem c1_and_rule_min (wt : List (Str × ℚ)) (mn : Str) (rxn : Reaction)
    (g : Str) (rest gl : List Str)
    (hgenes : rxn.genes.length > 0)
    (hes : (prepare_expr_split_gen_list rxn mn).expr_split =
      some (interleaveOp andL (g :: rest)))
    (hgl : (prepare_expr_split_gen_list rxn mn).gen_list = some gl)
    (hnd : (g :: rest).Nodup)
    (hv : ∀ x ∈ g :: rest, validName x)
    (hsub : ∀ x ∈ g :: rest, x ∈ gl)
    (hnn : ∀ x ∈ gl, 0 ≤ lookupD wt x) :
    apply_gpr_reaction wt mn rxn = some (.num (minFold ((g :: rest).map (lookupD wt)))) := by
  unfold apply_gpr_reaction
  rw [if_pos hgenes, hes, hgl]
  exact eval_gpr_rule_and wt g rest gl hv hsub hnn

/-- C1 witness: a two-gene `and`-reaction under `human1` with weights
`{A: 3, B: 5}` gets weight `min(3, 5) = 3`. -/
theorem c1_and_rule_min_witness :
    apply_gpr_reaction [(['A'], 3), (['B'], 5)] human1L
      ⟨['r', '1'], [['A'], ['B']], ['A', ' ', 'a', 'n', 'd', ' ', 'B']⟩ =
      some (.num 3) := by
  have h := c1_and_rule_min [(['A'], 3), (['B'], 5)] human1L
    ⟨['r', '1'], [['A'], ['B']], ['A', ' ', 'a', 'n', 'd', ' ', 'B']⟩
    ['A'] [['B']] [['A'], ['B']]
    (by decide) (by decide) (by decide) (by decide) (by decide) (by decide) (by decide)
  rw [h]
  decide

/-- C2 counterexample: for the reaction with rule `A or B` and gene
weights `{A: -3, B: 2}`, `apply_gpr` (under the `human1` convention)
computes the weight `-3`, but `max(weight(A), weight(B)) = 2`, so the
claimed equality with the maximum fails. -/
theorem c2_or_max_counterexample :
    apply_gpr [⟨['r', '1'], [['A'], ['B']], ['A', ' ', 'o', 'r', ' ', 'B']⟩]
      [(['A'], -3), (['B'], 2)] human1L = some [(['r', '1'], .num (-3))] ∧
    max (-3 : ℚ) 2 ≠ -3 := by
  constructor
  · have hprep : prepare_expr_split_gen_list
        ⟨['r', '1'], [['A'], ['B']], ['A', ' ', 'o', 'r', ' ', 'B']⟩ human1L =
        ⟨some [['A'], orL, ['B']], some [['A'], ['B']], []⟩ := by decide
    have heval : eval_gpr_rule [(['A'], -3), (['B'], 2)] [['A'], orL, ['B']]
        [['A'], ['B']] = some (.num (-3)) := by
      have hs : sympify (opSubst (joinSep [' '] [['A'], orL, ['B']]))
          = some (.mul (.sym ['A']) (.sym ['B'])) := by decide
      rw [eval_gpr_rule, hs]
      simp +decide only [adjustedWeights, negweightsOf, new_weightsOf, flipW, lookupD,
        lookupQ, subsW, replace_MulMax_AddMin, evalFold, unflip, List.map,
        List.filterMap, Option.getD]
      norm_num [eps, min_def, max_def]
    simp only [apply_gpr, apply_gpr_reaction, hprep]
    rw [if_pos (by decide)]
    simp only [heval]
  · norm_num [max_def]

/-- C2 (amended): for a reaction whose rule tokenizes (under any supported
naming convention) to distinct valid gene identifiers joined only by
`or`, all of which belong to the reaction's gene set, and whose looked-up
gene weights are all nonnegative, `apply_gpr` assigns the reaction the
weight `max` of the genes' looked-up weights. -/
theorem c2_or_rule_max (wt : List (Str × ℚ)) (mn : Str) (rxn : Reaction)
    (g : Str) (rest gl : List Str)
    (hgenes : rxn.genes.length > 0)
    (hes : (prepare_expr_split_gen_list rxn mn).expr_split =
      some (interleaveOp orL (g :: rest)))
    (hgl : (prepare_expr_split_gen_list rxn mn).gen_list = some gl)
    (hnd : (g :: rest).Nodup)
    (hv : ∀ x ∈ g :: rest, validName x)
    (hsub : ∀ x ∈ g :: rest, x ∈ gl)
    (hnn : ∀ x ∈ gl, 0 ≤ lookupD wt x) :
    apply_gpr_reaction wt mn rxn = some (.num (maxFold ((g :: rest).map (lookupD wt)))) := by
  unfold apply_gpr_reaction
  rw [if_pos hgenes, hes, hgl]
  exact eval_gpr_rule_or wt g rest gl hv hsub hnn

/-- C2 witness: a two-gene `or`-reaction under `human1` with weights
`{A: 3, B: 5}` gets weight `max(3, 5) = 5`. -/
theorem c2_or_rule_max_witness :
    apply_gpr_reaction [(['A'], 3), (['B'], 5)] human1L
      ⟨['r', '1'], [['A'], ['B']], ['A', ' ', 'o', 'r', ' ', 'B']⟩ =
      some (.num 5) := by
  have h := c2_or_rule_max [(['A'], 3), (['B'], 5)] human1L
    ⟨['r', '1'], [['A'], ['B']], ['A', ' ', 'o', 'r', ' ', 'B']⟩
    ['A'] [['B']] [['A'], ['B']]
    (by decide) (by decide) (by decide) (by decide) (by decide) (by decide) (by decide)
  rw [h]
  decide

/-- C3: for every gene of the rule's gene set whose looked-up weight `v`
is negative, the adjusted table substitutes `-v - 1e-15` and records `-v`
in `negweights`; and whenever the evaluated result is a number `r`, the
final reaction weight is `-r - 1e-15` if `r + 1e-15` occurs in
`negweights` and `r` unchanged otherwise. -/
theorem c3_negweight_flip_unflip (wt : List (Str × ℚ)) (es gl : List Str) (g : Str)
    (hg : g ∈ gl) (hv : lookupD wt g < 0) :
    lookupQ (adjustedWeights wt gl) g = some (-(lookupD wt g) - eps) ∧
    (-(lookupD wt g)) ∈ negweightsOf wt gl ∧
    (∀ (e : SymExpr) (r : ℚ),
      sympify (opSubst (joinSep [' '] es)) = some e →
      evalFold (subsW (adjustedWeights wt gl) (replace_MulMax_AddMin e)) = .num r →
      eval_gpr_rule wt es gl =
        some (.num (if r + eps ∈ negweightsOf wt gl then -r - eps else r))) := by
  refine ⟨?_, ?_, ?_⟩
  · have h1 : lookupQ (adjustedWeights wt gl) g = some (flipW (lookupD wt g)) :=
      lookupQ_map_self (fun y => flipW (lookupD wt y)) gl g hg
    rw [h1, flipW, if_pos hv]
  · exact List.mem_filterMap.mpr
      ⟨lookupD wt g, List.mem_map.mpr ⟨g, hg, rfl⟩, by rw [if_pos hv]⟩
  · intro e r hsym heval
    unfold eval_gpr_rule
    rw [hsym]
    show some (unflip (evalFold (subsW (adjustedWeights wt gl)
      (replace_MulMax_AddMin e))) (negweightsOf wt gl)) = _
    rw [heval]
    rw [show unflip (.num r) (negweightsOf wt gl) =
      if r + eps ∈ negweightsOf wt gl then .num (-r - eps) else .num r from rfl]
    split_ifs <;> rfl

/-- C3 witness: the one-gene rule `A` with weight `-1` substitutes
`1 - 1e-15`, records `1`, and the unflip restores the weight `-1`. -/
theorem c3_negweight_flip_unflip_witness :
    lookupQ (adjustedWeights [(['A'], -1)] [['A']]) ['A'] = some (1 - eps) ∧
    (1 : ℚ) ∈ negweightsOf [(['A'], -1)] [['A']] ∧
    eval_gpr_rule [(['A'], -1)] [['A']] [['A']] = some (.num (-1)) := by
  have h := c3_negweight_flip_unflip [(['A'], -1)] [['A']] [['A']] ['A']
    (by decide) (by decide)
  have hl : lookupD [(['A'], -1)] ['A'] = -1 := by decide
  have hadj : lookupQ (adjustedWeights [(['A'], -1)] [['A']]) ['A'] = some (1 - eps) := by
    rw [h.1, hl]
    norm_num
  have hneg : (1 : ℚ) ∈ negweightsOf [(['A'], -1)] [['A']] := by
    have h2 := h.2.1
    rw [hl] at h2
    norm_num at h2
    exact h2
  refine ⟨hadj, hneg, ?_⟩
  have hsym : sympify (opSubst (joinSep [' '] [['A']])) = some (.sym ['A']) := by decide
  have heval : evalFold (subsW (adjustedWeights [(['A'], -1)] [['A']])
      (replace_MulMax_AddMin (.sym ['A']))) = .num (1 - eps) := by
    simp only [replace_MulMax_AddMin, subsW, hadj, evalFold]
    rw [hl]
    norm_num [flipW]
  have h3 := h.2.2 (.sym ['A']) (1 - eps) hsym heval
  rw [h3]
  have hin : (1 - eps) + eps ∈ negweightsOf [(['A'], -1)] [['A']] := by
    have : (1 - eps) + eps = (1 : ℚ) := by ring
    rw [this]
    exact hneg
  rw [if_pos hin]
  norm_num

/-- C4: for the rule `A and (B or C)` with gene weights
`{A: 2, B: 5, C: -1}`, `apply_gpr` (under the `human1` convention)
produces the reaction weight `2`. -/
theorem c4_and_or_example :
    apply_gpr [⟨['r', '1'], [['A'], ['B'], ['C']],
      ['A', ' ', 'a', 'n', 'd', ' ', '(', 'B', ' ', 'o', 'r', ' ', 'C', ')']⟩]
      [(['A'], 2), (['B'], 5), (['C'], -1)] human1L =
      some [(['r', '1'], .num 2)] := by
  have hprep : prepare_expr_split_gen_list
      ⟨['r', '1'], [['A'], ['B'], ['C']],
        ['A', ' ', 'a', 'n', 'd', ' ', '(', 'B', ' ', 'o', 'r', ' ', 'C', ')']⟩ human1L =
      ⟨some [['A'], andL, ['('], ['B'], orL, ['C'], [')']],
        some [['A'], ['B'], ['C']], []⟩ := by decide
  have heval : eval_gpr_rule [(['A'], 2), (['B'], 5), (['C'], -1)]
      [['A'], andL, ['('], ['B'], orL, ['C'], [')']] [['A'], ['B'], ['C']] =
      some (.num 2) := by
    have hs : sympify (opSubst (joinSep [' ']
        [['A'], andL, ['('], ['B'], orL, ['C'], [')']]))
        = some (.add (.sym ['A']) (.mul (.sym ['B']) (.sym ['C']))) := by decide
    rw [eval_gpr_rule, hs]
    simp +decide only [adjustedWeights, negweightsOf, new_weightsOf, flipW, lookupD,
      lookupQ, subsW, replace_MulMax_AddMin, evalFold, unflip, List.map,
      List.filterMap, Option.getD]
    norm_num [eps, min_def, max_def]
  simp only [apply_gpr, apply_gpr_reaction, hprep]
  rw [if_pos (by decide)]
  simp only [heval]

/-- C5: a reaction with zero associated genes is assigned the weight
exactly `0.`, whatever the gene-weight table, the naming convention and
the rule text; both for the loop body and inside the full `apply_gpr`
result. -/
theorem c5_zero_genes (wt : List (Str × ℚ)) (mn : Str) (rxn : Reaction)
    (h : rxn.genes = []) :
    apply_gpr_reaction wt mn rxn = some (.num 0) ∧
    ∀ (model : List Reaction) (ws : List (Str × SymExpr)),
      rxn ∈ model → apply_gpr model wt mn = some ws → (rxn.rid, SymExpr.num 0) ∈ ws := by
  have h0 : apply_gpr_reaction wt mn rxn = some (.num 0) := by
    unfold apply_gpr_reaction
    rw [if_neg (by simp [h])]
  refine ⟨h0, ?_⟩
  intro model
  induction model with
  | nil =>
    intro ws hmem _
    simp at hmem
  | cons r rest ih =>
    intro ws hmem happ
    unfold apply_gpr at happ
    rcases List.mem_cons.mp hmem with rfl | hmem2
    · rw [h0] at happ
      cases hrest : apply_gpr rest wt mn with
      | none =>
        rw [hrest] at happ
        simp at happ
      | some ws' =>
        rw [hrest] at happ
        simp only [Option.some.injEq] at happ
        rw [← happ]
        exact List.mem_cons_self _ _
    · cases hr : apply_gpr_reaction wt mn r with
      | none =>
        rw [hr] at happ
        simp at happ
      | some w =>
        cases hrest : apply_gpr rest wt mn with
        | none =>
          rw [hr, hrest] at happ
          simp at happ
        | some ws' =>
          rw [hr, hrest] at happ
          simp only [Option.some.injEq] at happ
          rw [← happ]
          exact List.mem_cons_of_mem _ (ih ws' hmem2 hrest)

/-- C5 witness: a gene-less reaction under `human1` with a nonempty
weight table gets weight `0.` and appears with weight `0.` in the
`apply_gpr` output. -/
theorem c5_zero_genes_witness :
    apply_gpr_reaction [(['A'], 7)] human1L ⟨['r', '0'], [], []⟩ = some (.num 0) ∧
    (['r', '0'], SymExpr.num 0) ∈ [((['r', '0'] : Str), SymExpr.num 0)] := by
  have h := c5_zero_genes [(['A'], 7)] human1L ⟨['r', '0'], [], []⟩ rfl
  exact ⟨h.1, h.2 [⟨['r', '0'], [], []⟩] [(['r', '0'], SymExpr.num 0)]
    (by simp) (by decide)⟩

/-- C6: a gene of the rule's gene set with no entry in the gene-weight
table gets the default weight `0` in the `new_weights` dictionary built by
`apply_gpr` (evaluation proceeds instead of failing). -/
theorem c6_missing_gene_defaults_zero (wt : List (Str × ℚ)) (gl : List Str) (g : Str)
    (hg : g ∈ gl) (hmiss : lookupQ wt g = none) :
    lookupQ (new_weightsOf wt gl) g = some 0 ∧ lookupD wt g = 0 := by
  constructor
  · have h1 : lookupQ (new_weightsOf wt gl) g = some (lookupD wt g) :=
      lookupQ_map_self (fun y => lookupD wt y) gl g hg
    rw [h1, lookupD, hmiss]
    rfl
  · rw [lookupD, hmiss]
    rfl

/-- C6 witness: gene `A` absent from an empty weight table is entered
into `new_weights` with weight `0`. -/
theorem c6_missing_gene_defaults_zero_witness :
    lookupQ (new_weightsOf [] [['A']]) ['A'] = some 0 ∧
    lookupD [] ['A'] = 0 :=
  c6_missing_gene_defaults_zero [] [['A']] ['A'] (by simp) rfl

/-- C7: an unrecognized naming convention makes
`prepare_expr_split_gen_list` return `(None, None)` with the
`"Modelname not found"` console message, and makes the `__main__` driver
print the unsupported-model message and compute no reaction weights. -/
theorem c7_unknown_modelname (mn : Str) (hmn : mn ∉ model_list) :
    (∀ rxn : Reaction, prepare_expr_split_gen_list rxn mn =
      ⟨none, none, [.modelnameNotFound]⟩) ∧
    ∀ (model : List Reaction) (wt : List (Str × ℚ)),
      gpr_main model wt mn = (none, [.unsupportedModel]) := by
  have h5 : ¬(mn = recon2L) ∧ ¬(mn = recon1L) ∧ ¬(mn = iMM1865L) ∧ ¬(mn = human1L) ∧
      ¬(mn = zebrafish1L) := by
    simp only [model_list, List.mem_cons, List.not_mem_nil, or_false, not_or] at hmn
    tauto
  constructor
  · intro rxn
    unfold prepare_expr_split_gen_list
    rw [if_neg h5.1, if_neg h5.2.1, if_neg h5.2.2.1, if_neg h5.2.2.2.1,
      if_neg h5.2.2.2.2]
  · intro model wt
    unfold gpr_main
    rw [if_neg hmn]

/-- C7 witness: the convention tag `"foo"` is rejected: tokenization
yields `(None, None)` with the error message, and the driver computes no
weights. -/
theorem c7_unknown_modelname_witness :
    prepare_expr_split_gen_list ⟨['r'], [], []⟩ ['f', 'o', 'o'] =
      ⟨none, none, [.modelnameNotFound]⟩ ∧
    gpr_main [] [] ['f', 'o', 'o'] = (none, [.unsupportedModel]) := by
  have h := c7_unknown_modelname ['f', 'o', 'o'] (by decide)
  exact ⟨h.1 ⟨['r'], [], []⟩, h.2 [] []⟩

/-! ### Gene-score table lemmas (for the duplicate-dropping policy) -/

theorem lookupQ_filter_none (q : (Str × ℚ) → Bool) (rows : List (Str × ℚ)) (g : Str)
    (h : ∀ r ∈ rows, r.1 = g → q r = false) :
    lookupQ (rows.filter q) g = none := by
  induction rows with
  | nil => rfl
  | cons r rest ih =>
    obtain ⟨k, v⟩ := r
    by_cases hkey : k = g
    · have hq : q (k, v) = false := h (k, v) (by simp) hkey
      rw [List.filter_cons, if_neg (by simp [hq])]
      exact ih (fun x hx hk => h x (by simp [hx]) hk)
    · rw [List.filter_cons]
      split
      · rw [show lookupQ ((k, v) :: rest.filter q) g = lookupQ (rest.filter q) g from
          if_neg hkey]
        exact ih (fun x hx hk => h x (by simp [hx]) hk)
      · exact ih (fun x hx hk => h x (by simp [hx]) hk)

theorem lookupQ_filter_some (q : (Str × ℚ) → Bool) (rows : List (Str × ℚ)) (g : Str)
    (v : ℚ) : (∀ r ∈ rows, r.1 = g → q r = true) → (∀ r ∈ rows, r.1 = g → r.2 = v) →
    (∃ r ∈ rows, r.1 = g) → lookupQ (rows.filter q) g = some v := by
  induction rows with
  | nil =>
    intro _ _ hex
    simp at hex
  | cons r rest ih =>
    intro hq hv hex
    obtain ⟨k, w⟩ := r
    by_cases hkey : k = g
    · rw [List.filter_cons, if_pos (by simp [hq (k, w) (by simp) hkey])]
      rw [show lookupQ ((k, w) :: rest.filter q) g = some w from if_pos hkey,
        show w = v from hv (k, w) (by simp) hkey]
    · have hex' : ∃ r ∈ rest, r.1 = g := by
        obtain ⟨r', hr', hrk⟩ := hex
        rcases List.mem_cons.mp hr' with rfl | hmem
        · exact absurd hrk hkey
        · exact ⟨r', hmem, hrk⟩
      rw [List.filter_cons]
      split
      · rw [show lookupQ ((k, w) :: rest.filter q) g = lookupQ (rest.filter q) g from
          if_neg hkey]
        exact ih (fun x hx hk => hq x (by simp [hx]) hk)
          (fun x hx hk => hv x (by simp [hx]) hk) hex'
      · exact ih (fun x hx hk => hq x (by simp [hx]) hk)
          (fun x hx hk => hv x (by simp [hx]) hk) hex'

/-- C8: a gene occurring in several rows of the scores file with more
than one distinct score is removed entirely from the gene-weight table,
while a gene whose duplicate rows all carry one and the same score is
kept with that score. -/
theorem c8_conflicting_scores_dropped (rows : List (Str × ℚ)) (g : Str) (v : ℚ) :
    (1 < ((scoresOf rows g).dedup).length → gene_weights_dict rows g = none) ∧
    (1 < (scoresOf rows g).length → (scoresOf rows g).dedup = [v] →
      gene_weights_dict rows g = some v) := by
  constructor
  · intro hconf
    unfold gene_weights_dict build_gene_weights
    apply lookupQ_filter_none
    intro r hr hkey
    have hlen2 : 1 < (scoresOf rows g).length :=
      lt_of_lt_of_le hconf (List.Sublist.length_le (List.dedup_sublist _))
    rw [hkey]
    simp [droppedGene, hconf, hlen2]
  · intro hdup hone
    unfold gene_weights_dict build_gene_weights
    apply lookupQ_filter_some
    · intro r hr hkey
      rw [hkey]
      simp [droppedGene, hone]
    · intro r hr hkey
      have hmem : r.2 ∈ scoresOf rows g :=
        List.mem_map.mpr ⟨r, List.mem_filter.mpr ⟨hr, by simp [hkey]⟩, rfl⟩
      have hd := List.mem_dedup.mpr hmem
      rw [hone] at hd
      simpa using hd
    · have hne : scoresOf rows g ≠ [] := by
        intro hnil
        rw [hnil] at hdup
        simp at hdup
      obtain ⟨r, hrmem⟩ : ∃ r, r ∈ rows.filter (fun r => decide (r.1 = g)) := by
        cases hfe : rows.filter (fun r => decide (r.1 = g)) with
        | nil =>
          exfalso
          apply hne
          unfold scoresOf
          rw [hfe]
          rfl
        | cons a l => exact ⟨a, by simp [hfe]⟩
      have hsplit := List.mem_filter.mp hrmem
      exact ⟨r, hsplit.1, by simpa using hsplit.2⟩

/-- C8 witness: with rows `A:1, A:2, B:3, C:4, C:4` the gene `A`
(conflicting scores) is dropped and the gene `C` (duplicate rows, equal
scores) is kept with score `4`. -/
theorem c8_conflicting_scores_dropped_witness :
    gene_weights_dict [(['A'], 1), (['A'], 2), (['B'], 3), (['C'], 4), (['C'], 4)]
      ['A'] = none ∧
    gene_weights_dict [(['A'], 1), (['A'], 2), (['B'], 3), (['C'], 4), (['C'], 4)]
      ['C'] = some 4 :=
  ⟨(c8_conflicting_scores_dropped _ ['A'] 0).1 (by decide),
   (c8_conflicting_scores_dropped _ ['C'] 4).2 (by decide) (by decide)⟩

/-- C9: the discretizer on the ten values `1..10` with `percentage = 25`
labels the three lowest-ranked genes `-1`, the four middle genes `0` and
the three highest-ranked genes `1`, partitioning the column by rank. -/
theorem c9_discretizer_example :
    expression2qualitative_keep
      [(['g', '1'], 1), (['g', '2'], 2), (['g', '3'], 3), (['g', '4'], 4), (['g', '5'], 5),
       (['g', '6'], 6), (['g', '7'], 7), (['g', '8'], 8), (['g', '9'], 9),
       (['g', 'X'], 10)] 25 =
      [(['g', '1'], -1), (['g', '2'], -1), (['g', '3'], -1), (['g', '4'], 0),
       (['g', '5'], 0), (['g', '6'], 0), (['g', '7'], 0), (['g', '8'], 1),
       (['g', '9'], 1), (['g', 'X'], 1)] := by
  have hlab : ∀ i : ℕ, qualitativeLabel 10 25 i =
      if 7 ≤ (i : ℤ) then 1 else if 3 ≤ (i : ℤ) then 0 else -1 := by
    intro i
    unfold qualitativeLabel
    norm_num
  have hsort : sortRows
      [(['g', '1'], 1), (['g', '2'], 2), (['g', '3'], 3), (['g', '4'], 4), (['g', '5'], 5),
       (['g', '6'], 6), (['g', '7'], 7), (['g', '8'], 8), (['g', '9'], 9),
       (['g', 'X'], 10)] =
      [(['g', '1'], 1), (['g', '2'], 2), (['g', '3'], 3), (['g', '4'], 4), (['g', '5'], 5),
       (['g', '6'], 6), (['g', '7'], 7), (['g', '8'], 8), (['g', '9'], 9),
       (['g', 'X'], 10)] := by decide
  unfold expression2qualitative_keep
  rw [hsort]
  simp only [assignLabels, hlab, List.length_cons, List.length_nil]
  norm_num

/-! ### Length lemmas for the substring-corruption claim -/

theorem isPre_length_le (pat : Str) : ∀ s : Str, isPre pat s = true →
    pat.length ≤ s.length := by
  induction pat with
  | nil => intro s _; simp
  | cons p pat ih =>
    intro s hs
    cases s with
    | nil => simp [isPre] at hs
    | cons c rest =>
      simp only [isPre, Bool.and_eq_true] at hs
      have := ih rest hs.2
      simp only [List.length_cons]
      omega

theorem pyRepF_length_le (old new : Str) (hne : old ≠ [])
    (hlen : new.length ≤ old.length) : ∀ (f : ℕ) (s : Str),
    (pyRepF old new f s).length ≤ s.length := by
  intro f
  induction f with
  | zero => intro s; rw [pyRepF_zero]
  | succ f ih =>
    intro s
    cases s with
    | nil => simp [pyRepF_nilStr]
    | cons c rest =>
      rw [pyRepF_succ_cons]
      split
      · rename_i hpre
        have hol := isPre_length_le old _ hpre
        have hrec := ih (List.drop old.length (c :: rest))
        simp only [List.length_append, List.length_drop] at hrec ⊢
        omega
      · have hrec := ih rest
        simp only [List.length_cons]
        omega

theorem pyRepF_length_lt (old new : Str) (hne : old ≠ [])
    (hlen : new.length < old.length) : ∀ (f : ℕ) (s : Str), s.length ≤ f →
    containsSub old s = true → (pyRepF old new f s).length < s.length := by
  obtain ⟨o, os, rfl⟩ : ∃ o os, old = o :: os := by
    cases old
    · exact absurd rfl hne
    · exact ⟨_, _, rfl⟩
  intro f
  induction f with
  | zero =>
    intro s hf hc
    have : s = [] := List.eq_nil_of_length_eq_zero (Nat.le_zero.mp hf)
    subst this
    simp [containsSub, isPre] at hc
  | succ f ih =>
    intro s hf hc
    cases s with
    | nil => simp [containsSub, isPre] at hc
    | cons c rest =>
      rw [pyRepF_succ_cons]
      split
      · rename_i hpre
        have hol := isPre_length_le (o :: os) _ hpre
        have hrec := pyRepF_length_le (o :: os) new hne (le_of_lt hlen) f
          (List.drop (o :: os).length (c :: rest))
        simp only [List.length_append, List.length_drop] at hrec ⊢
        omega
      · rename_i hpre
        have hc' : containsSub (o :: os) rest = true := by
          rw [containsSub, Bool.or_eq_true] at hc
          rcases hc with hcl | hcr
          · exact absurd hcl hpre
          · exact hcr
        have hfr : rest.length ≤ f := by
          simp only [List.length_cons] at hf
          omega
        have hrec := ih rest hfr hc'
        simp only [List.length_cons]
        omega

theorem pyRepF_no_occurrence (old new : Str) : ∀ (f : ℕ) (s : Str), s.length ≤ f →
    containsSub old s = false → pyRepF old new f s = s := by
  intro f
  induction f with
  | zero =>
    intro s _ _
    rw [pyRepF_zero]
  | succ f ih =>
    intro s hf hc
    cases s with
    | nil => rw [pyRepF_nilStr]
    | cons c rest =>
      rw [containsSub, Bool.or_eq_false_iff] at hc
      rw [pyRepF_succ_cons, if_neg (by simp [hc.1]),
        ih rest (by simp only [List.length_cons] at hf; omega) hc.2]

/-- C10: the operator-substitution step of `apply_gpr` is plain substring
replacement, so it corrupts every token containing `or` or `and` as a
substring (the substituted text always differs from the token); for the
gene `sorD` the rule evaluation yields the symbolic `Max(s, D)` whatever
weight the table assigns to `sorD` — that gene's table entry is never
used. -/
theorem c10_identifier_corruption :
    (∀ g : Str, (containsSub orL g = true ∨ containsSub andL g = true) →
      opSubst g ≠ g) ∧
    (∀ w : ℚ, eval_gpr_rule [(['s', 'o', 'r', 'D'], w)] [['s', 'o', 'r', 'D']]
      [['s', 'o', 'r', 'D']] = some (.smax (.sym ['s']) (.sym ['D']))) := by
  constructor
  · intro g hcon
    have hlt : (opSubst g).length < g.length := by
      unfold opSubst pyReplace
      by_cases hor : containsSub orL g = true
      · have h1 : (pyRepF orL starL (g.length + 1) g).length < g.length :=
          pyRepF_length_lt orL starL (by decide) (by decide) _ g (by omega) hor
        have h2 := pyRepF_length_le andL plusL (by decide) (by decide)
          ((pyRepF orL starL (g.length + 1) g).length + 1)
          (pyRepF orL starL (g.length + 1) g)
        omega
      · have hand : containsSub andL g = true := by
          rcases hcon with h | h
          · exact absurd h hor
          · exact h
        have hid : pyRepF orL starL (g.length + 1) g = g :=
          pyRepF_no_occurrence orL starL _ g (by omega)
            (Bool.not_eq_true _ ▸ Bool.of_not_eq_true hor)
        rw [hid]
        exact pyRepF_length_lt andL plusL (by decide) (by decide) _ g (by omega) hand
    intro heq
    rw [heq] at hlt
    exact lt_irrefl _ hlt
  · intro w
    rfl

/-- C10 witness: the gene token `sorD` is corrupted by the substitution
(`opSubst "sorD" = "s*D"`), and the weight table entry `sorD ↦ 5` is
ignored by the evaluation. -/
theorem c10_identifier_corruption_witness :
    opSubst ['s', 'o', 'r', 'D'] ≠ ['s', 'o', 'r', 'D'] ∧
    eval_gpr_rule [(['s', 'o', 'r', 'D'], 5)] [['s', 'o', 'r', 'D']]
      [['s', 'o', 'r', 'D']] = some (.smax (.sym ['s']) (.sym ['D'])) :=
  ⟨c10_identifier_corruption.1 ['s', 'o', 'r', 'D'] (Or.inl (by decide)),
   c10_identifier_corruption.2 5⟩

end DexomGpr
